import Mathlib

/-!
# Local block API server: chunking, block store and diff store

A shallow embedding of `src/server/pfs/server/local_block_api_server.go`.

* Bytes are natural numbers, byte strings are `List Byte`, Go strings that are
  used as paths are `List Char`.
* `bytes.Buffer` is the list of its unread bytes; a `hash.Hash` is the list of
  the bytes written to it so far (the digest is a function of that list).
* `blockSize`, `newHash` and `getBlock` live in another file of the package and
  are taken as parameters (`blockSize : Nat`, `digest : List Byte → String`).
* The chunking code is written once over the two `bufio.Reader` methods it
  calls (`Reader`), and run on two readers: `ByteReader`, the contract of a
  reader over a byte sequence that ends with `io.EOF`, and `Bufio`, the
  `bufio.Reader` that `PutBlock` builds on its `putBlockReader`.  The theorems
  relate the two.
* Standard-library code (`bufio`, `bytes`, `encoding/json`, `strings`,
  `strconv`, `path/filepath`, `os`) is modelled after its sources of the Go
  release the file was written for.
* Loops that Go writes as `for` are functions with a fuel argument; running out
  of fuel is the outcome `Err.OutOfFuel`, which is never a result of the
  program.  The theorems give fuel bounds under which the result is reached.
* `int` counters (`bytesWritten`, `buffer.Len()`) are `Nat`: they count bytes
  held in memory and never reach `2^63`.
-/

namespace Pfs

/-! ## Basic data -/

abbrev Byte := Nat

/-- Errors that the modelled code paths can return. -/
inductive Err where
  | EOF
  | ErrUnexpectedEOF
  | ErrBufferFull
  | ErrNoProgress
  | SyntaxError
  | NotExist
  | IsDir
  | NotDir
  | Panic
  | OutOfFuel
  deriving DecidableEq, Repr

/-- The `pfsclient.Delimiter` enumeration. -/
inductive Delimiter where
  | NONE
  | JSON
  | LINE
  deriving DecidableEq, Repr

/-- The `pfsclient.Block` message. -/
structure Block where
  Hash : String
  deriving DecidableEq, Repr

/-- The `pfsclient.ByteRange` message. -/
structure ByteRange where
  Lower : Nat
  Upper : Nat
  deriving DecidableEq, Repr

/-- The `pfsclient.BlockRef` message. -/
structure BlockRef where
  Block : Block
  Range : ByteRange
  deriving DecidableEq, Repr

/-- The `pfsclient.PutBlockRequest` message. -/
structure PutBlockRequest where
  Value : List Byte
  Delimiter : Delimiter
  deriving DecidableEq, Repr

/-- The two methods of `*bufio.Reader` that the server calls.  Both return the
bytes read, the error (if any) and the reader afterwards. -/
structure Reader (ρ : Type) where
  ReadBytes : Byte → ρ → (List Byte × Option Err) × ρ
  Read : Nat → ρ → (List Byte × Option Err) × ρ

/-- Go's `bytes.IndexByte`: position of the first `c` in `s`. -/
def IndexByte : List Byte → Byte → Option Nat
  | [], _ => none
  | b :: bs, c => if b = c then some 0 else (IndexByte bs c).map (· + 1)

/-! ## A reader over a fixed byte sequence

The contract of `bufio.Reader` over a source that delivers the bytes `bs` and
then reports end-of-input: `ReadBytes` returns the bytes up to and including
the delimiter, or everything that is left together with `io.EOF`. -/

def byteReadBytes (delim : Byte) (bs : List Byte) : (List Byte × Option Err) × List Byte :=
  match IndexByte bs delim with
  | some i => ((bs.take (i + 1), none), bs.drop (i + 1))
  | none => ((bs, some Err.EOF), [])

def byteRead (n : Nat) (bs : List Byte) : (List Byte × Option Err) × List Byte :=
  if n = 0 then (([], none), bs)
  else if bs = [] then (([], some Err.EOF), [])
  else ((bs.take n, none), bs.drop n)

def ByteReader : Reader (List Byte) where
  ReadBytes := byteReadBytes
  Read := byteRead

/-! ## Line-delimited chunking (`readBlockLineDelimited`) -/

/-- Local state of a `readBlock*Delimited` call when it returns: the buffer,
the bytes written to the hash, the `EOF` flag and the reader. -/
structure Accum (ρ : Type) where
  buffer : List Byte
  hash : List Byte
  EOF : Bool
  reader : ρ

/-- The loop of `readBlockLineDelimited`, lines 244-259. -/
def readBlockLineDelimitedLoop {ρ : Type} (R : Reader ρ) (blockSize : Nat) :
    Nat → List Byte → List Byte → Nat → ρ → Except Err (Accum ρ)
  | 0, _, _, _, _ => .error Err.OutOfFuel
  | fuel + 1, buffer, hash, bytesWritten, reader =>
    match R.ReadBytes 10 reader with
    | ((bytes, err), reader1) =>
      if err ≠ none ∧ err ≠ some Err.EOF then .error (err.getD Err.EOF)
      else
        let EOF : Bool := decide (err = some Err.EOF)
        let buffer1 := buffer ++ bytes
        let hash1 := hash ++ bytes
        let bytesWritten1 := bytesWritten + bytes.length
        if bytesWritten1 > blockSize then .ok ⟨buffer1, hash1, EOF, reader1⟩
        else if EOF then .ok ⟨buffer1, hash1, EOF, reader1⟩
        else readBlockLineDelimitedLoop R blockSize fuel buffer1 hash1 bytesWritten1 reader1

/-- The function `readBlockLineDelimited`: a fresh hash and `bytesWritten = 0`. -/
def readBlockLineDelimited {ρ : Type} (R : Reader ρ) (blockSize fuel : Nat)
    (buffer : List Byte) (reader : ρ) : Except Err (Accum ρ) :=
  readBlockLineDelimitedLoop R blockSize fuel buffer [] 0 reader

/-! ## The JSON scanner of `encoding/json`

`json.Decoder` is standard-library code; the scanner below follows its state
machine (`scanner.go`): one state function per `StepFn`, a stack of
`ParseState`s, and the `endTop` flag. -/

inductive ParseState where
  | parseObjectKey
  | parseObjectValue
  | parseArrayValue
  deriving DecidableEq, Repr

inductive ScanCode where
  | scanContinue
  | scanBeginLiteral
  | scanBeginObject
  | scanObjectKey
  | scanObjectValue
  | scanEndObject
  | scanBeginArray
  | scanArrayValue
  | scanEndArray
  | scanSkipSpace
  | scanEnd
  | scanError
  deriving DecidableEq, Repr

inductive StepFn where
  | stateBeginValueOrEmpty
  | stateBeginValue
  | stateBeginStringOrEmpty
  | stateBeginString
  | stateEndValue
  | stateEndTop
  | stateInString
  | stateInStringEsc
  | stateInStringEscU
  | stateInStringEscU1
  | stateInStringEscU12
  | stateInStringEscU123
  | stateNeg
  | state1
  | state0
  | stateDot
  | stateDot0
  | stateE
  | stateESign
  | stateE0
  | stateT
  | stateTr
  | stateTru
  | stateF
  | stateFa
  | stateFal
  | stateFals
  | stateN
  | stateNu
  | stateNul
  | stateError
  deriving DecidableEq, Repr

/-- The scanner: current state function, parse stack (top first), `endTop`. -/
structure Scanner where
  step : StepFn
  parseState : List ParseState
  endTop : Bool
  deriving DecidableEq, Repr

namespace Scanner

open ScanCode StepFn ParseState

/-- The scanner after `reset`. -/
def reset : Scanner := ⟨stateBeginValue, [], false⟩

def isSpace (c : Byte) : Bool :=
  c = 32 || c = 9 || c = 13 || c = 10

def isDigit (c : Byte) : Bool := 48 ≤ c && c ≤ 57

def isDigit19 (c : Byte) : Bool := 49 ≤ c && c ≤ 57

def isHex (c : Byte) : Bool :=
  (48 ≤ c && c ≤ 57) || (97 ≤ c && c ≤ 102) || (65 ≤ c && c ≤ 70)

/-- The method `error`: records the error and moves to `stateError`. -/
def error (s : Scanner) : ScanCode × Scanner :=
  (scanError, { s with step := stateError })

def popParseState (s : Scanner) : Scanner :=
  match s.parseState.tail with
  | [] => { s with parseState := [], step := stateEndTop, endTop := true }
  | rest => { s with parseState := rest, step := stateEndValue }

def stateEndTopFn (s : Scanner) (c : Byte) : ScanCode × Scanner :=
  if isSpace c then (scanEnd, s) else (scanEnd, { s with step := stateError })

def stateEndValueFn (s : Scanner) (c : Byte) : ScanCode × Scanner :=
  match s.parseState with
  | [] => stateEndTopFn { s with step := stateEndTop, endTop := true } c
  | ps :: rest =>
    if isSpace c then (scanSkipSpace, { s with step := stateEndValue })
    else
      match ps with
      | parseObjectKey =>
        if c = 58 then
          (scanObjectKey, { s with parseState := parseObjectValue :: rest, step := stateBeginValue })
        else error s
      | parseObjectValue =>
        if c = 44 then
          (scanObjectValue, { s with parseState := parseObjectKey :: rest, step := stateBeginString })
        else if c = 125 then (scanEndObject, popParseState s)
        else error s
      | parseArrayValue =>
        if c = 44 then (scanArrayValue, { s with step := stateBeginValue })
        else if c = 93 then (scanEndArray, popParseState s)
        else error s

def stateBeginValueFn (s : Scanner) (c : Byte) : ScanCode × Scanner :=
  if isSpace c then (scanSkipSpace, s)
  else if c = 123 then
    (scanBeginObject, { s with step := stateBeginStringOrEmpty,
                               parseState := parseObjectKey :: s.parseState })
  else if c = 91 then
    (scanBeginArray, { s with step := stateBeginValueOrEmpty,
                              parseState := parseArrayValue :: s.parseState })
  else if c = 34 then (scanBeginLiteral, { s with step := stateInString })
  else if c = 45 then (scanBeginLiteral, { s with step := stateNeg })
  else if c = 48 then (scanBeginLiteral, { s with step := state0 })
  else if c = 116 then (scanBeginLiteral, { s with step := stateT })
  else if c = 102 then (scanBeginLiteral, { s with step := stateF })
  else if c = 110 then (scanBeginLiteral, { s with step := stateN })
  else if isDigit19 c then (scanBeginLiteral, { s with step := state1 })
  else error s

def stateBeginValueOrEmptyFn (s : Scanner) (c : Byte) : ScanCode × Scanner :=
  if isSpace c then (scanSkipSpace, s)
  else if c = 93 then stateEndValueFn s c
  else stateBeginValueFn s c

def stateBeginStringFn (s : Scanner) (c : Byte) : ScanCode × Scanner :=
  if isSpace c then (scanSkipSpace, s)
  else if c = 34 then (scanBeginLiteral, { s with step := stateInString })
  else error s

def stateBeginStringOrEmptyFn (s : Scanner) (c : Byte) : ScanCode × Scanner :=
  if isSpace c then (scanSkipSpace, s)
  else if c = 125 then
    stateEndValueFn { s with parseState := parseObjectValue :: s.parseState.tail } c
  else stateBeginStringFn s c

def stateInStringFn (s : Scanner) (c : Byte) : ScanCode × Scanner :=
  if c = 34 then (scanContinue, { s with step := stateEndValue })
  else if c = 92 then (scanContinue, { s with step := stateInStringEsc })
  else if c < 32 then error s
  else (scanContinue, s)

def stateInStringEscFn (s : Scanner) (c : Byte) : ScanCode × Scanner :=
  if c = 98 || c = 102 || c = 110 || c = 114 || c = 116 || c = 92 || c = 47 || c = 34 then
    (scanContinue, { s with step := stateInString })
  else if c = 117 then (scanContinue, { s with step := stateInStringEscU })
  else error s

/-- The four states after `\u`: a hexadecimal digit moves to `next`. -/
def stateHexFn (next : StepFn) (s : Scanner) (c : Byte) : ScanCode × Scanner :=
  if isHex c then (scanContinue, { s with step := next }) else error s

def stateNegFn (s : Scanner) (c : Byte) : ScanCode × Scanner :=
  if c = 48 then (scanContinue, { s with step := state0 })
  else if isDigit19 c then (scanContinue, { s with step := state1 })
  else error s

def state0Fn (s : Scanner) (c : Byte) : ScanCode × Scanner :=
  if c = 46 then (scanContinue, { s with step := stateDot })
  else if c = 101 || c = 69 then (scanContinue, { s with step := stateE })
  else stateEndValueFn s c

def state1Fn (s : Scanner) (c : Byte) : ScanCode × Scanner :=
  if isDigit c then (scanContinue, { s with step := state1 }) else state0Fn s c

def stateDotFn (s : Scanner) (c : Byte) : ScanCode × Scanner :=
  if isDigit c then (scanContinue, { s with step := stateDot0 }) else error s

def stateDot0Fn (s : Scanner) (c : Byte) : ScanCode × Scanner :=
  if isDigit c then (scanContinue, s)
  else if c = 101 || c = 69 then (scanContinue, { s with step := stateE })
  else stateEndValueFn s c

def stateESignFn (s : Scanner) (c : Byte) : ScanCode × Scanner :=
  if isDigit c then (scanContinue, { s with step := stateE0 }) else error s

def stateEFn (s : Scanner) (c : Byte) : ScanCode × Scanner :=
  if c = 43 || c = 45 then (scanContinue, { s with step := stateESign })
  else stateESignFn s c

def stateE0Fn (s : Scanner) (c : Byte) : ScanCode × Scanner :=
  if isDigit c then (scanContinue, s) else stateEndValueFn s c

/-- The states inside `true`, `false`, `null`: the byte `want` moves to `next`. -/
def stateLitFn (want : Byte) (next : StepFn) (s : Scanner) (c : Byte) : ScanCode × Scanner :=
  if c = want then (scanContinue, { s with step := next }) else error s

/-- The call `s.step(s, c)`. -/
def stepByte (s : Scanner) (c : Byte) : ScanCode × Scanner :=
  match s.step with
  | stateBeginValueOrEmpty => stateBeginValueOrEmptyFn s c
  | stateBeginValue => stateBeginValueFn s c
  | stateBeginStringOrEmpty => stateBeginStringOrEmptyFn s c
  | stateBeginString => stateBeginStringFn s c
  | stateEndValue => stateEndValueFn s c
  | stateEndTop => stateEndTopFn s c
  | stateInString => stateInStringFn s c
  | stateInStringEsc => stateInStringEscFn s c
  | stateInStringEscU => stateHexFn stateInStringEscU1 s c
  | stateInStringEscU1 => stateHexFn stateInStringEscU12 s c
  | stateInStringEscU12 => stateHexFn stateInStringEscU123 s c
  | stateInStringEscU123 => stateHexFn stateInString s c
  | stateNeg => stateNegFn s c
  | state1 => state1Fn s c
  | state0 => state0Fn s c
  | stateDot => stateDotFn s c
  | stateDot0 => stateDot0Fn s c
  | stateE => stateEFn s c
  | stateESign => stateESignFn s c
  | stateE0 => stateE0Fn s c
  | stateT => stateLitFn 114 stateTr s c
  | stateTr => stateLitFn 117 stateTru s c
  | stateTru => stateLitFn 101 stateEndValue s c
  | stateF => stateLitFn 97 stateFa s c
  | stateFa => stateLitFn 108 stateFal s c
  | stateFal => stateLitFn 115 stateFals s c
  | stateFals => stateLitFn 101 stateEndValue s c
  | stateN => stateLitFn 117 stateNu s c
  | stateNu => stateLitFn 108 stateNul s c
  | stateNul => stateLitFn 108 stateEndValue s c
  | stateError => (scanError, s)

end Scanner

/-! ## `json.Decoder` (`stream.go`) -/

/-- Outcome of scanning the unread part of the decoder buffer. -/
inductive ScanOut where
  | found (n : Nat)
  | failed
  | more (s : Scanner)
  deriving DecidableEq, Repr

/-- The inner `for i, c := range dec.buf[scanp:]` loop of `readValue`: `found n`
when a complete value ends after `n` bytes. -/
def scanBuf : Scanner → List Byte → Nat → ScanOut
  | s, [], _ => ScanOut.more s
  | s, c :: cs, i =>
    match s.stepByte c with
    | (v, s1) =>
      if v = ScanCode.scanEnd then ScanOut.found i
      else if v = ScanCode.scanEndObject ∨ v = ScanCode.scanEndArray then
        match s1.stepByte 32 with
        | (v2, s2) => if v2 = ScanCode.scanEnd then ScanOut.found (i + 1) else scanBuf s2 cs (i + 1)
      else if v = ScanCode.scanError then ScanOut.failed
      else scanBuf s1 cs (i + 1)

/-- A `json.Decoder`: the unread bytes of its buffer and the buffer capacity. -/
structure Decoder where
  buf : List Byte
  cap : Nat
  deriving DecidableEq, Repr

/-- The decoder made by `json.NewDecoder`. -/
def NewDecoder : Decoder := ⟨[], 0⟩

/-- The method `refill`: grow the buffer when fewer than `minRead = 512` bytes are
free, then one `Read` into the free space. -/
def refill {ρ : Type} (R : Reader ρ) (dec : Decoder) (reader : ρ) : (Decoder × Option Err) × ρ :=
  let cap1 := if dec.cap - dec.buf.length < 512 then 2 * dec.cap + 512 else dec.cap
  match R.Read (cap1 - dec.buf.length) reader with
  | ((data, err), reader1) => ((⟨dec.buf ++ data, cap1⟩, err), reader1)

/-- The method `readValue`: the length of the next value in the buffer, refilling
until a value is complete or the read fails. -/
def readValue {ρ : Type} (R : Reader ρ) :
    Nat → Decoder → Option Err → ρ → (Nat × Option Err) × Decoder × ρ
  | 0, dec, _, reader => ((0, some Err.OutOfFuel), dec, reader)
  | fuel + 1, dec, err, reader =>
    match scanBuf Scanner.reset dec.buf 0 with
    | ScanOut.found n => ((n, none), dec, reader)
    | ScanOut.failed => ((0, some Err.SyntaxError), dec, reader)
    | ScanOut.more s =>
      match err with
      | some e =>
        if e = Err.EOF then
          if (s.stepByte 32).1 = ScanCode.scanEnd then ((dec.buf.length, none), dec, reader)
          else if dec.buf.any (fun c => !Scanner.isSpace c) then
            ((0, some Err.ErrUnexpectedEOF), dec, reader)
          else ((0, some Err.EOF), dec, reader)
        else ((0, some e), dec, reader)
      | none =>
        match refill R dec reader with
        | ((dec1, err1), reader1) => readValue R fuel dec1 err1 reader1

/-- The call `decoder.Decode(&value)` for a fresh `json.RawMessage`: on success
the value is the raw text of the next JSON value (leading white space dropped);
on failure the value stays nil. -/
def Decode {ρ : Type} (R : Reader ρ) (fuel : Nat) (dec : Decoder) (reader : ρ) :
    (List Byte × Option Err) × Decoder × ρ :=
  match readValue R fuel dec none reader with
  | ((_, some e), dec1, reader1) => (([], some e), dec1, reader1)
  | ((n, none), dec1, reader1) =>
    (((dec1.buf.take n).dropWhile Scanner.isSpace, none), ⟨dec1.buf.drop n, dec1.cap⟩, reader1)

/-- The method `MarshalJSON` of a `json.RawMessage` (pointer receiver,
`return *m, nil`): the stored bytes, nothing for the nil message.  (Later Go
releases marshal the nil message as `null`; see the remark at the theorem on the
record-delimited policy.) -/
def MarshalJSON (m : List Byte) : List Byte × Option Err := (m, none)

/-! ## Record-delimited chunking (`readBlockJSONDelimited`) -/

/-- The loop of `readBlockJSONDelimited`, lines 270-294. -/
def readBlockJSONDelimitedLoop {ρ : Type} (R : Reader ρ) (blockSize : Nat) (inner : Nat) :
    Nat → List Byte → List Byte → Nat → Decoder → ρ → Except Err (Accum ρ)
  | 0, _, _, _, _, _ => .error Err.OutOfFuel
  | fuel + 1, buffer, hash, bytesWritten, decoder, reader =>
    match Decode R inner decoder reader with
    | ((value, err), decoder1, reader1) =>
      if err ≠ none ∧ err ≠ some Err.EOF then .error (err.getD Err.EOF)
      else
        let EOF : Bool := decide (err = some Err.EOF)
        match MarshalJSON value with
        | (_, some e) => .error e
        | (bytes, none) =>
          let buffer1 := buffer ++ bytes
          let hash1 := hash ++ bytes
          let bytesWritten1 := bytesWritten + bytes.length
          if bytesWritten1 > blockSize then .ok ⟨buffer1, hash1, EOF, reader1⟩
          else if EOF then .ok ⟨buffer1, hash1, EOF, reader1⟩
          else readBlockJSONDelimitedLoop R blockSize inner fuel buffer1 hash1 bytesWritten1
                 decoder1 reader1

/-- The function `readBlockJSONDelimited`: a fresh hash, `bytesWritten = 0` and a
new decoder on the reader. -/
def readBlockJSONDelimited {ρ : Type} (R : Reader ρ) (blockSize fuel : Nat)
    (buffer : List Byte) (reader : ρ) : Except Err (Accum ρ) :=
  readBlockJSONDelimitedLoop R blockSize fuel fuel buffer [] 0 NewDecoder reader

/-! ## `readBlock`, `putOneBlock` and the loop of `PutBlock` -/

/-- The helper `getBlock`: the block named by the digest of the hashed bytes. -/
def getBlock (digest : List Byte → String) (hash : List Byte) : Block := ⟨digest hash⟩

/-- The function `readBlock`: the block reference and the data of the next chunk. -/
def readBlock {ρ : Type} (R : Reader ρ) (blockSize : Nat) (digest : List Byte → String)
    (fuel : Nat) (delimiter : Delimiter) (reader : ρ) :
    Except Err ((BlockRef × List Byte) × ρ) :=
  match (if delimiter = Delimiter.JSON then readBlockJSONDelimited R blockSize fuel [] reader
         else readBlockLineDelimited R blockSize fuel [] reader) with
  | .error e => .error e
  | .ok acc => .ok ((⟨getBlock digest acc.hash, ⟨0, acc.buffer.length⟩⟩, acc.buffer), acc.reader)

/-- The block directory: block hash to file content. -/
abbrev BlockStore := List (String × List Byte)

/-- The content stored under a hash (`os.Stat` / `os.Open` of `blockPath`). -/
def BlockStore.get (store : BlockStore) (hash : String) : Option (List Byte) :=
  match store with
  | [] => none
  | (k, d) :: rest => if k = hash then some d else BlockStore.get rest hash

/-- Go's `ioutil.WriteFile` on the block directory: create or replace. -/
def BlockStore.WriteFile (store : BlockStore) (hash : String) (data : List Byte) : BlockStore :=
  match store with
  | [] => [(hash, data)]
  | (k, d) :: rest =>
    if k = hash then (hash, data) :: rest else (k, d) :: BlockStore.WriteFile rest hash data

/-- The method `putOneBlock`: read a chunk and write it unless its path exists. -/
def putOneBlock {ρ : Type} (R : Reader ρ) (blockSize : Nat) (digest : List Byte → String)
    (fuel : Nat) (delimiter : Delimiter) (reader : ρ) (store : BlockStore) :
    Except Err (BlockRef × ρ) × BlockStore :=
  match readBlock R blockSize digest fuel delimiter reader with
  | .error e => (.error e, store)
  | .ok ((blockRef, data), reader1) =>
    if store.get blockRef.Block.Hash = none then
      (.ok (blockRef, reader1), store.WriteFile blockRef.Block.Hash data)
    else (.ok (blockRef, reader1), store)

/-- What becomes of an error of `putOneBlock` in the loop of `PutBlock`: the
block reference is nil then, and the `Printf` of line 71 reads `blockRef.Range`
before the error is looked at on line 72, so the handler panics.  (Running out
of fuel in the model stays what it is.) -/
def nilBlockRef (e : Err) : Err := if e = Err.OutOfFuel then Err.OutOfFuel else Err.Panic

/-- The `for` loop of `PutBlock`, lines 68-80: put blocks until one is shorter
than `blockSize`. -/
def putBlockLoop {ρ : Type} (R : Reader ρ) (blockSize : Nat) (digest : List Byte → String)
    (inner : Nat) (delimiter : Delimiter) :
    Nat → ρ → List BlockRef → BlockStore → Except Err (List BlockRef) × BlockStore
  | 0, _, _, store => (.error Err.OutOfFuel, store)
  | fuel + 1, reader, result, store =>
    match putOneBlock R blockSize digest inner delimiter reader store with
    | (.error e, store1) => (.error (nilBlockRef e), store1)
    | (.ok (blockRef, reader1), store1) =>
      if blockRef.Range.Upper - blockRef.Range.Lower < blockSize then
        (.ok (result ++ [blockRef]), store1)
      else putBlockLoop R blockSize digest inner delimiter fuel reader1 (result ++ [blockRef]) store1

/-- The chunks that the loop of `PutBlock` reads: `readBlock` repeated until a
chunk is shorter than `blockSize`, each with its data. -/
def readBlocks {ρ : Type} (R : Reader ρ) (blockSize : Nat) (digest : List Byte → String)
    (inner : Nat) (delimiter : Delimiter) :
    Nat → ρ → Except Err (List (BlockRef × List Byte) × ρ)
  | 0, _ => .error Err.OutOfFuel
  | fuel + 1, reader =>
    match readBlock R blockSize digest inner delimiter reader with
    | .error e => .error (nilBlockRef e)
    | .ok ((blockRef, data), reader1) =>
      if blockRef.Range.Upper - blockRef.Range.Lower < blockSize then
        .ok ([(blockRef, data)], reader1)
      else
        match readBlocks R blockSize digest inner delimiter fuel reader1 with
        | .error e => .error e
        | .ok (chunks, reader2) => .ok ((blockRef, data) :: chunks, reader2)

/-- The method `GetBlock`: the section `[offset, offset + size)` of the stored
block, or an error when the block file cannot be opened.  Offset and size are
taken below `2^63`, where the conversion to `int64` of line 99 changes nothing. -/
def GetBlock (store : BlockStore) (block : Block) (OffsetBytes SizeBytes : Nat) :
    Except Err (List Byte) :=
  match store.get block.Hash with
  | none => .error Err.NotExist
  | some data => .ok ((data.drop OffsetBytes).take SizeBytes)

/-! ## The stream adapter (`putBlockReader`) under a `bufio.Reader` -/

/-- The inbound stream `BlockAPI_PutBlockServer`: the messages still to come;
after the last one `Recv` reports `io.EOF`. -/
abbrev PutBlockServer := List PutBlockRequest

/-- The call `server.Recv()`. -/
def Recv (server : PutBlockServer) : (Option PutBlockRequest × Option Err) × PutBlockServer :=
  match server with
  | [] => ((none, some Err.EOF), [])
  | request :: rest => ((some request, none), rest)

/-- Go's `bytes.Buffer.Read` into a slice of length `n`: `io.EOF` when the buffer
has no data to return (unless `n = 0`), else the next `min n len` bytes. -/
def bufferRead (n : Nat) (buffer : List Byte) : (List Byte × Option Err) × List Byte :=
  if buffer = [] then
    if n = 0 then (([], none), buffer) else (([], some Err.EOF), buffer)
  else ((buffer.take n, none), buffer.drop n)

/-- The type `putBlockReader`. -/
structure putBlockReader where
  server : PutBlockServer
  buffer : List Byte
  deriving DecidableEq, Repr

/-- The method `putBlockReader.Read` for a slice `p` of length `n`, lines 342-352. -/
def putBlockReader.Read (n : Nat) (r : putBlockReader) : (List Byte × Option Err) × putBlockReader :=
  if r.buffer.length = 0 then
    match Recv r.server with
    | ((some request, none), server1) =>
      match bufferRead n (r.buffer ++ request.Value) with
      | (out, buffer1) => (out, ⟨server1, buffer1⟩)
    | ((_, err), server1) => (([], some (err.getD Err.EOF)), ⟨server1, r.buffer⟩)
  else
    match bufferRead n r.buffer with
    | (out, buffer1) => (out, ⟨r.server, buffer1⟩)

/-- A `bufio.Reader` on a `putBlockReader`: the buffered unread bytes and the
pending error.  The buffer has `defaultBufSize = 4096` bytes. -/
structure BufioReader where
  rd : putBlockReader
  buf : List Byte
  err : Option Err
  deriving DecidableEq, Repr

def defaultBufSize : Nat := 4096

/-- The loop of `bufio.Reader.fill`: read into the free space until data or an
error arrives, at most `maxConsecutiveEmptyReads` times. -/
def fillLoop : Nat → BufioReader → BufioReader
  | 0, b => { b with err := some Err.ErrNoProgress }
  | i + 1, b =>
    match b.rd.Read (defaultBufSize - b.buf.length) with
    | ((data, err), rd1) =>
      if err ≠ none then ⟨rd1, b.buf ++ data, err⟩
      else if data.length > 0 then ⟨rd1, b.buf ++ data, b.err⟩
      else fillLoop i ⟨rd1, b.buf ++ data, b.err⟩

def fill (b : BufioReader) : BufioReader := fillLoop 100 b

/-- Go's `bufio.Reader.ReadSlice`. -/
def ReadSlice (delim : Byte) : Nat → BufioReader → (List Byte × Option Err) × BufioReader
  | 0, b => (([], some Err.OutOfFuel), b)
  | fuel + 1, b =>
    match IndexByte b.buf delim with
    | some i => ((b.buf.take (i + 1), none), { b with buf := b.buf.drop (i + 1) })
    | none =>
      if b.err ≠ none then ((b.buf, b.err), ⟨b.rd, [], none⟩)
      else if b.buf.length ≥ defaultBufSize then ((b.buf, some Err.ErrBufferFull), ⟨b.rd, [], b.err⟩)
      else ReadSlice delim fuel (fill b)

/-- Go's `bufio.Reader.ReadBytes`: `ReadSlice` repeated while the buffer fills up,
the full buffers collected in `full`. -/
def ReadBytesLoop (delim : Byte) (inner : Nat) :
    Nat → List Byte → BufioReader → (List Byte × Option Err) × BufioReader
  | 0, full, b => ((full, some Err.OutOfFuel), b)
  | fuel + 1, full, b =>
    match ReadSlice delim inner b with
    | ((frag, none), b1) => ((full ++ frag, none), b1)
    | ((frag, some e), b1) =>
      if e = Err.ErrBufferFull then ReadBytesLoop delim inner fuel (full ++ frag) b1
      else ((full ++ frag, some e), b1)

/-- Number of bytes and messages that a reader can still deliver. -/
def BufioReader.size (b : BufioReader) : Nat :=
  b.buf.length + b.rd.buffer.length + (b.rd.server.map (fun m => m.Value.length + 1)).sum

/-- Go's `bufio.Reader.Read` into a slice of length `n`. -/
def BufioReader.Read (n : Nat) (b : BufioReader) : (List Byte × Option Err) × BufioReader :=
  if n = 0 then (([], b.err), { b with err := none })
  else if b.buf = [] then
    if b.err ≠ none then (([], b.err), { b with err := none })
    else if n ≥ defaultBufSize then
      match b.rd.Read n with
      | ((data, err), rd1) => ((data, err), ⟨rd1, [], none⟩)
    else
      match fill b with
      | b1 =>
        if b1.buf = [] then (([], b1.err), { b1 with err := none })
        else ((b1.buf.take n, none), { b1 with buf := b1.buf.drop n })
  else ((b.buf.take n, none), { b with buf := b.buf.drop n })

def BufioReader.ReadBytes (delim : Byte) (b : BufioReader) : (List Byte × Option Err) × BufioReader :=
  ReadBytesLoop delim (b.size + 2) (b.size + 2) [] b

/-- The reader that `PutBlock` builds: `bufio.NewReader(&putBlockReader{...})`. -/
def Bufio : Reader BufioReader where
  ReadBytes := BufioReader.ReadBytes
  Read := BufioReader.Read

/-- The bytes that successive `putBlockReader.Read` calls with slices of length
`n` deliver before the first error, and that error. -/
def readUntilErr (n : Nat) : Nat → putBlockReader → List Byte × Option Err
  | 0, _ => ([], some Err.OutOfFuel)
  | fuel + 1, r =>
    match r.Read n with
    | ((_, some e), _) => ([], some e)
    | ((data, none), r1) =>
      match readUntilErr n fuel r1 with
      | (rest, e) => (data ++ rest, e)

/-! ## `PutBlock` -/

/-- The method `PutBlock`: the reply sent with `SendAndClose` (or the error), and
the block store afterwards. -/
def PutBlock (blockSize : Nat) (digest : List Byte → String) (fuel : Nat)
    (putBlockServer : PutBlockServer) (store : BlockStore) :
    Except Err (List BlockRef) × BlockStore :=
  match Recv putBlockServer with
  | ((some putBlockRequest, none), server1) =>
    putBlockLoop Bufio blockSize digest fuel putBlockRequest.Delimiter fuel
      ⟨⟨server1, putBlockRequest.Value⟩, [], none⟩ [] store
  | ((_, err), _) =>
    if err ≠ some Err.EOF then (.error (err.getD Err.EOF), store)
    else (.ok [], store)

/-! ## Paths (`strings`, `strconv`, `path/filepath`)

Go strings used as paths are lists of characters.  `filepath.Clean` is
modelled on path elements: empty and `.` elements are dropped, a `..` element
removes the element before it when there is one, is dropped at the root, and
is kept otherwise. -/

abbrev Str := List Char

/-- Go's `strings.Split(s, "/")`: the pieces between the slashes, one more than
there are slashes. -/
def Split : Str → List Str
  | [] => [[]]
  | c :: cs =>
    if c = '/' then [] :: Split cs
    else
      match Split cs with
      | [] => [[c]]
      | seg :: rest => (c :: seg) :: rest

/-- Go's `strings.Join(elem, "/")`. -/
def JoinSep : List Str → Str
  | [] => []
  | [a] => a
  | a :: b :: rest => a ++ '/' :: JoinSep (b :: rest)

/-- Go's `strings.TrimPrefix`. -/
def TrimPrefix (s pre : Str) : Str :=
  if pre.isPrefixOf s then s.drop pre.length else s

/-- One path element of `filepath.Clean`; `out` holds the elements kept so far,
last one first. -/
def cleanStep (rooted : Bool) (out : List Str) (seg : Str) : List Str :=
  if seg = [] then out
  else if seg = ['.'] then out
  else if seg = ['.', '.'] then
    match out with
    | top :: rest =>
      if top ≠ ['.', '.'] then rest
      else if rooted then out else seg :: out
    | [] => if rooted then out else [seg]
  else seg :: out

/-- Go's `filepath.Clean` (Unix). -/
def Clean (path : Str) : Str :=
  if path = [] then ['.']
  else
    let rooted : Bool := path.head? = some '/'
    let out := (Split path).foldl (cleanStep rooted) []
    let body := JoinSep out.reverse
    if rooted then '/' :: body
    else if body = [] then ['.'] else body

/-- Go's `filepath.Join`: the elements from the first non-empty one on, joined
with `/` and cleaned. -/
def Join (elem : List Str) : Str :=
  match elem.dropWhile (fun e => e = []) with
  | [] => []
  | rest => Clean (JoinSep rest)

/-- Go's `path.Dir`: everything up to the last slash, cleaned. -/
def Dir (path : Str) : Str :=
  Clean (path.reverse.dropWhile (fun c => c ≠ '/')).reverse

/-- The decimal digit `d` as a character. -/
def digitChar (d : Nat) : Char := Char.ofNat (48 + d)

/-- The loop of `strconv.FormatUint` in base 10: digits are produced from the
least significant one. -/
def formatBits : Nat → Nat → Str → Str
  | 0, _, acc => acc
  | fuel + 1, u, acc =>
    if u ≥ 10 then formatBits fuel (u / 10) (digitChar (u % 10) :: acc)
    else digitChar u :: acc

/-- Go's `strconv.FormatUint(u, 10)` for a `uint64` (at most 20 digits). -/
def FormatUint (u : Nat) : Str := formatBits 20 u []

/-- The loop of `strconv.ParseUint(s, 10, 64)`: digits only, with the overflow
checks against `cutoff = maxUint64/10 + 1` and `maxUint64`. -/
def parseUintLoop : Str → Nat → Option Nat
  | [], n => some n
  | c :: cs, n =>
    if '0' ≤ c ∧ c ≤ '9' then
      if n ≥ (2 ^ 64 - 1) / 10 + 1 then none
      else
        let n1 := n * 10 + (c.toNat - 48)
        if n1 > 2 ^ 64 - 1 then none else parseUintLoop cs n1
    else none

/-- Go's `strconv.ParseUint(s, 10, 64)`; `none` when it returns an error. -/
def ParseUint (s : Str) : Option Nat :=
  if s = [] then none else parseUintLoop s 0

/-! ## Diff keys and their paths -/

/-- The `pfsclient.Repo` message. -/
structure Repo where
  Name : Str
  deriving DecidableEq, Repr

/-- The `pfsclient.Commit` message. -/
structure Commit where
  Repo : Repo
  ID : Str
  deriving DecidableEq, Repr

/-- The `pfsclient.Diff` message; `Shard` is a `uint64`. -/
structure Diff where
  Commit : Commit
  Shard : Nat
  deriving DecidableEq, Repr

/-- The `pfsclient.DiffInfo` message: its key and the rest of its fields. -/
structure DiffInfo where
  Diff : Diff
  payload : List Byte
  deriving DecidableEq, Repr

def tmpDir (dir : Str) : Str := Join [dir, ['t', 'm', 'p']]

def blockDir (dir : Str) : Str := Join [dir, ['b', 'l', 'o', 'c', 'k']]

def diffDir (dir : Str) : Str := Join [dir, ['d', 'i', 'f', 'f']]

/-- The method `diffPath`, lines 193-201. -/
def diffPath (dir : Str) (diff : Diff) : Str :=
  let commitID := if diff.Commit.ID = [] then ['_'] else diff.Commit.ID
  Join [diffDir dir, diff.Commit.Repo.Name, FormatUint diff.Shard, commitID]

/-- The method `pathToDiff`, lines 204-224; `none` is the nil diff. -/
def pathToDiff (dir : Str) (path : Str) : Option Diff :=
  let repoCommitShard := Split (TrimPrefix path (diffDir dir ++ ['/']))
  if repoCommitShard.length < 3 then none
  else
    let commitID := repoCommitShard.getD 2 []
    let commitID := if commitID = ['_'] then [] else commitID
    match ParseUint (repoCommitShard.getD 1 []) with
    | none => none
    | some shard => some ⟨⟨⟨repoCommitShard.getD 0 []⟩, commitID⟩, shard⟩

/-! ## The diff directory on disk

Regular files hold serialized `DiffInfo` messages; `proto.Unmarshal` returns
the message that `proto.Marshal` was given, so a file is modelled by the
message itself.  Directories are the paths created by `os.MkdirAll`; the root
`/` and the working directory `.` always exist. -/

structure FS where
  files : List (Str × DiffInfo)
  dirs : List Str
  deriving DecidableEq, Repr

def FS.empty : FS := ⟨[], []⟩

def FS.isDir (fs : FS) (path : Str) : Bool :=
  path = ['/'] || path = ['.'] || fs.dirs.contains path

/-- The file stored at a path, if it is a regular file. -/
def FS.file (fs : FS) (path : Str) : Option DiffInfo :=
  (fs.files.find? (fun e => e.1 = path)).map (fun e => e.2)

/-- Replace or add the file at a path. -/
def setFile : List (Str × DiffInfo) → Str → DiffInfo → List (Str × DiffInfo)
  | [], path, data => [(path, data)]
  | (k, d) :: rest, path, data =>
    if k = path then (path, data) :: rest else (k, d) :: setFile rest path data

/-- Go's `os.MkdirAll` on a clean path: nothing to do for a directory, `ENOTDIR`
for a regular file, else make the parent and then the directory itself. -/
def MkdirAll : Nat → FS → Str → Except Err FS
  | 0, _, _ => .error Err.OutOfFuel
  | fuel + 1, fs, path =>
    if fs.isDir path then .ok fs
    else if (fs.file path).isSome then .error Err.NotDir
    else
      match MkdirAll fuel fs (Dir path) with
      | .error e => .error e
      | .ok fs1 => .ok { fs1 with dirs := fs1.dirs ++ [path] }

/-- Go's `ioutil.WriteFile`: fails on a directory and when the parent directory
is missing, else creates or replaces the file. -/
def WriteFile (fs : FS) (path : Str) (data : DiffInfo) : Except Err FS :=
  if fs.isDir path then .error Err.IsDir
  else if !fs.isDir (Dir path) then .error Err.NotExist
  else .ok { fs with files := setFile fs.files path data }

/-- Go's `ioutil.ReadFile` followed by `proto.Unmarshal`. -/
def ReadFile (fs : FS) (path : Str) : Except Err DiffInfo :=
  if fs.isDir path then .error Err.IsDir
  else
    match fs.file path with
    | none => .error Err.NotExist
    | some data => .ok data

/-- The directories made by `newLocalBlockAPIServer`. -/
def newLocalBlockAPIServer (dir : Str) : Except Err FS :=
  match MkdirAll ((tmpDir dir).length + 1) FS.empty (tmpDir dir) with
  | .error e => .error e
  | .ok fs1 =>
    match MkdirAll ((diffDir dir).length + 1) fs1 (diffDir dir) with
    | .error e => .error e
    | .ok fs2 => MkdirAll ((blockDir dir).length + 1) fs2 (blockDir dir)

/-- The method `CreateDiff`, lines 128-141. -/
def CreateDiff (dir : Str) (fs : FS) (request : DiffInfo) : Except Err Unit × FS :=
  match MkdirAll ((diffPath dir request.Diff).length + 1) fs (Dir (diffPath dir request.Diff)) with
  | .error e => (.error e, fs)
  | .ok fs1 =>
    match WriteFile fs1 (diffPath dir request.Diff) request with
    | .error e => (.error e, fs1)
    | .ok fs2 => (.ok (), fs2)

/-- The disk after a sequence of `CreateDiff` calls. -/
def createDiffs (dir : Str) (fs : FS) (requests : List DiffInfo) : FS :=
  requests.foldl (fun fs1 request => (CreateDiff dir fs1 request).2) fs

/-- The method `readDiff`, lines 226-236. -/
def readDiff (dir : Str) (fs : FS) (diff : Diff) : Except Err DiffInfo :=
  ReadFile fs (diffPath dir diff)

/-- Lexical order of strings, as `sort.Strings` uses it. -/
def strLE : Str → Str → Bool
  | [], _ => true
  | _ :: _, [] => false
  | a :: as, b :: bs => if a < b then true else if b < a then false else strLE as bs

/-- Order of paths element by element. -/
def segsLE : List Str → List Str → Bool
  | [], _ => true
  | _ :: _, [] => false
  | a :: as, b :: bs => if a = b then segsLE as bs else strLE a b

def pathLE (a b : Str) : Bool := segsLE (Split a) (Split b)

/-- The paths that `filepath.Walk(root, ...)` hands to its function: the root,
then (for a directory) every directory and file below it, each directory before
its entries and the entries of a directory in lexical order. -/
def walkPaths (fs : FS) (root : Str) : List Str :=
  root ::
    (if fs.isDir root then
      List.insertionSort (fun a b => pathLE a b = true)
        ((fs.dirs ++ fs.files.map (fun e => e.1)).filter (fun p => (root ++ ['/']).isPrefixOf p))
    else [])

/-- The walk function of `ListDiff`, lines 150-166, run over the paths of the
walk; `sent` collects the messages passed to `listDiffServer.Send`. -/
def listDiffLoop (dir : Str) (fs : FS) (Shard : Nat) :
    List Str → List DiffInfo → Except Err Unit × List DiffInfo
  | [], sent => (.ok (), sent)
  | path :: rest, sent =>
    match pathToDiff dir path with
    | none => listDiffLoop dir fs Shard rest sent
    | some diff =>
      if diff.Shard = Shard then
        match readDiff dir fs diff with
        | .error e => (.error e, sent)
        | .ok diffInfo => listDiffLoop dir fs Shard rest (sent ++ [diffInfo])
      else listDiffLoop dir fs Shard rest sent

/-- The method `ListDiff`: the error (if any) and the messages sent. -/
def ListDiff (dir : Str) (fs : FS) (Shard : Nat) : Except Err Unit × List DiffInfo :=
  listDiffLoop dir fs Shard (walkPaths fs (diffDir dir)) []

/-! ## The bytes a stream still holds -/

/-- The bytes a `putBlockReader` has not delivered yet: its buffer and the
values of the messages still to come. -/
def putBlockReader.flat (r : putBlockReader) : List Byte :=
  r.buffer ++ (r.server.map (fun m => m.Value)).flatten

/-- Bytes and messages left in a `putBlockReader`. -/
def putBlockReader.size (r : putBlockReader) : Nat :=
  r.buffer.length + (r.server.map (fun m => m.Value.length + 1)).sum

/-- The bytes a `bufio.Reader` on a `putBlockReader` has not delivered yet. -/
def BufioReader.flat (b : BufioReader) : List Byte := b.buf ++ b.rd.flat

/-- A reader between two calls, on a stream none of whose coming messages has an
empty value: no error is pending. -/
def BufioReader.steady (b : BufioReader) : Prop :=
  b.err = none ∧ ∀ m ∈ b.rd.server, m.Value ≠ []

/-! ## Keys that are safe as paths -/

/-- A path element that `filepath.Clean` keeps as it is: not empty, without a
slash, and neither `.` nor `..`. -/
def plain (s : Str) : Prop := s ≠ [] ∧ '/' ∉ s ∧ s ≠ ['.'] ∧ s ≠ ['.', '.']

instance (s : Str) : Decidable (plain s) := by unfold plain; infer_instance

/-- A key whose repository name is a plain path element, whose commit identifier
is empty or a plain path element, and whose shard is a `uint64`. -/
def pathSafe (diff : Diff) : Prop :=
  plain diff.Commit.Repo.Name ∧ (diff.Commit.ID = [] ∨ plain diff.Commit.ID) ∧
    diff.Shard < 2 ^ 64

instance (diff : Diff) : Decidable (pathSafe diff) := by unfold pathSafe; infer_instance

/-- The message sent for a path by the walk function of `ListDiff`, if any. -/
def listed (dir : Str) (fs : FS) (Shard : Nat) (path : Str) : Option DiffInfo :=
  match pathToDiff dir path with
  | none => none
  | some diff =>
    if diff.Shard = Shard then
      match readDiff dir fs diff with
      | .error _ => none
      | .ok diffInfo => some diffInfo
    else none

/-- The stack of `filepath.Clean` (last element first) on a clean path: plain
elements above `..` elements, the latter only in a path that is not rooted. -/
def Normal (rooted : Bool) (out : List Str) : Prop :=
  ∃ k reals, out = reals ++ List.replicate k ['.', '.'] ∧ (rooted = true → k = 0) ∧
    ∀ s ∈ reals, plain s

/-- The path that `filepath.Clean` writes for a non-empty stack of elements. -/
def render (rooted : Bool) (stk : List Str) : Str :=
  if rooted then '/' :: JoinSep stk else JoinSep stk

/-- The path of the elements `ss` below the directory `root`. -/
def below (root : Str) (ss : List Str) : Str := root ++ '/' :: JoinSep ss

/-- The path element that stands for a commit identifier in `diffPath`. -/
def commitElem (ID : Str) : Str := if ID = [] then ['_'] else ID

/-- The diff directory as `CreateDiff` with path-safe keys leaves it: the
directory exists, every file is stored at the path of its own path-safe key,
every directory below the diff directory is a repository or shard directory,
and no two files share a path. -/
def FSInv (dir : Str) (fs : FS) : Prop :=
  fs.isDir (diffDir dir) = true ∧
  (∀ e ∈ fs.files, pathSafe e.2.Diff ∧ e.1 = diffPath dir e.2.Diff) ∧
  (∀ p ∈ fs.dirs, (diffDir dir ++ ['/']).isPrefixOf p = true →
    ∃ ss, p = below (diffDir dir) ss ∧ ss ≠ [] ∧ ss.length < 3 ∧ ∀ s ∈ ss, plain s) ∧
  (fs.files.map Prod.fst).Nodup

/-! # Theorems -/

/-! ## `IndexByte` and the byte-sequence reader -/

theorem IndexByte_some {bs : List Byte} {d : Byte} {i : Nat} (h : IndexByte bs d = some i) :
    ∃ l r, bs = l ++ d :: r ∧ d ∉ l ∧ l.length = i := by
  induction bs generalizing i with
  | nil => simp [IndexByte] at h
  | cons b bs ih =>
    unfold IndexByte at h
    by_cases hb : b = d
    · subst hb
      simp at h
      exact ⟨[], bs, by simp, by simp, by simpa using h⟩
    · simp only [hb, if_false, Option.map_eq_some'] at h
      obtain ⟨j, hj, rfl⟩ := h
      obtain ⟨l, r, rfl, hl, hlen⟩ := ih hj
      refine ⟨b :: l, r, by simp, ?_, by simp [hlen]⟩
      simp only [List.mem_cons, not_or]
      exact ⟨fun h => hb h.symm, hl⟩

theorem IndexByte_none {bs : List Byte} {d : Byte} (h : IndexByte bs d = none) : d ∉ bs := by
  induction bs with
  | nil => simp
  | cons b bs ih =>
    unfold IndexByte at h
    by_cases hb : b = d
    · simp [hb] at h
    · simp only [hb, if_false, Option.map_eq_none'] at h
      simp only [List.mem_cons, not_or]
      exact ⟨fun h => hb h.symm, ih h⟩

/-- The two outcomes of `ReadBytes` on a byte sequence: a line that ends with the
delimiter, or the delimiter-free rest together with `io.EOF`. -/
theorem byteReadBytes_cases (d : Byte) (bs : List Byte) :
    (∃ l r, bs = l ++ d :: r ∧ d ∉ l ∧ byteReadBytes d bs = ((l ++ [d], none), r)) ∨
    (d ∉ bs ∧ byteReadBytes d bs = ((bs, some Err.EOF), [])) := by
  unfold byteReadBytes
  cases h : IndexByte bs d with
  | none => exact Or.inr ⟨IndexByte_none h, rfl⟩
  | some i =>
    obtain ⟨l, r, rfl, hl, hlen⟩ := IndexByte_some h
    refine Or.inl ⟨l, r, rfl, hl, ?_⟩
    subst hlen
    simp [List.take_append_eq_append_take, List.drop_append_eq_append_drop]

theorem IndexByte_of_split {l r : List Byte} {d : Byte} (hl : d ∉ l) :
    IndexByte (l ++ d :: r) d = some l.length := by
  induction l with
  | nil => simp [IndexByte]
  | cons a l ih =>
    simp only [List.mem_cons, not_or] at hl
    have ha : ¬ a = d := fun h => hl.1 h.symm
    simp [IndexByte, ha, ih hl.2]

theorem IndexByte_of_not_mem {bs : List Byte} {d : Byte} (h : d ∉ bs) : IndexByte bs d = none := by
  induction bs with
  | nil => rfl
  | cons a l ih =>
    simp only [List.mem_cons, not_or] at h
    have ha : ¬ a = d := fun h1 => h.1 h1.symm
    simp [IndexByte, ha, ih h.2]

theorem byteReadBytes_of_split {l r : List Byte} {d : Byte} (hl : d ∉ l) :
    byteReadBytes d (l ++ d :: r) = ((l ++ [d], none), r) := by
  unfold byteReadBytes
  rw [IndexByte_of_split hl]
  simp [List.take_append_eq_append_take, List.drop_append_eq_append_drop]

theorem byteReadBytes_of_not_mem {bs : List Byte} {d : Byte} (h : d ∉ bs) :
    byteReadBytes d bs = ((bs, some Err.EOF), []) := by
  unfold byteReadBytes
  rw [IndexByte_of_not_mem h]

theorem byteReadBytes_append {frag rest : List Byte} {d : Byte} (h : d ∉ frag) :
    byteReadBytes d (frag ++ rest) =
      ((frag ++ (byteReadBytes d rest).1.1, (byteReadBytes d rest).1.2),
        (byteReadBytes d rest).2) := by
  rcases byteReadBytes_cases d rest with ⟨l, r, rfl, hl, heq⟩ | ⟨hn, heq⟩
  · rw [heq, ← List.append_assoc, byteReadBytes_of_split (by simp [h, hl])]
    simp
  · rw [heq, byteReadBytes_of_not_mem (by simp [h, hn])]

/-! ## The line-delimited loop on a byte sequence -/

theorem lineLoop_spec (blockSize : Nat) :
    ∀ (fuel : Nat) (buffer hash reader : List Byte),
      reader.length < fuel → buffer.length ≤ blockSize →
      (buffer = [] ∨ buffer.getLast? = some 10) →
      ∃ acc, readBlockLineDelimitedLoop ByteReader blockSize fuel buffer hash buffer.length reader
            = .ok acc ∧
        acc.buffer ++ acc.reader = buffer ++ reader ∧
        (∃ X, acc.buffer = buffer ++ X ∧ acc.hash = hash ++ X) ∧
        (acc.EOF = true → acc.reader = []) ∧
        (acc.EOF = false → blockSize < acc.buffer.length ∧
          ∃ pre l, acc.buffer = pre ++ (l ++ [10]) ∧ 10 ∉ l ∧ pre.length ≤ blockSize ∧
            (pre = [] ∨ pre.getLast? = some 10)) := by
  intro fuel
  induction fuel with
  | zero => intro _ _ reader h; simp at h
  | succ fuel ih =>
    intro buffer hash reader hfuel hlen hlast
    unfold readBlockLineDelimitedLoop
    have hR : ByteReader.ReadBytes 10 reader = byteReadBytes 10 reader := rfl
    rw [hR]
    rcases byteReadBytes_cases 10 reader with ⟨l, r, rfl, hl, heq⟩ | ⟨_, heq⟩
    · rw [heq]
      by_cases hbig : buffer.length + (l ++ [10]).length > blockSize
      · refine ⟨⟨buffer ++ (l ++ [10]), hash ++ (l ++ [10]), false, r⟩, ?_, ?_, ?_, ?_, ?_⟩
        · simp
          intro h
          simp at hbig
          omega
        · simp
        · exact ⟨l ++ [10], rfl, rfl⟩
        · simp
        · intro _
          refine ⟨by simpa using hbig, buffer, l, rfl, hl, hlen, hlast⟩
      · have hfuel1 : r.length < fuel := by
          simp at hfuel; omega
        have hlen1 : (buffer ++ (l ++ [10])).length ≤ blockSize := by
          simp at hbig ⊢; omega
        obtain ⟨acc, hacc, hcat, ⟨X, hX1, hX2⟩, heof, hne⟩ :=
          ih (buffer ++ (l ++ [10])) (hash ++ (l ++ [10])) r hfuel1 hlen1
            (Or.inr (by simp [List.getLast?_append]))
        refine ⟨acc, ?_, ?_, ?_, heof, hne⟩
        · simp only [ne_eq, not_true_eq_false, false_and, if_false, hbig]
          have : buffer.length + (l ++ [10]).length = (buffer ++ (l ++ [10])).length := by simp
          rw [this]
          simpa using hacc
        · rw [hcat]; simp
        · exact ⟨(l ++ [10]) ++ X, by rw [hX1]; simp, by rw [hX2]; simp⟩
    · rw [heq]
      refine ⟨⟨buffer ++ reader, hash ++ reader, true, []⟩, ?_, ?_, ?_, ?_, ?_⟩
      · simp
      · simp
      · exact ⟨reader, rfl, rfl⟩
      · simp
      · simp

/-- One `readBlock` with the line policy on a byte sequence: it returns a chunk
that is a prefix of the input, and a chunk of at most `blockSize` bytes is the
whole input. -/
theorem readBlock_line_spec (blockSize : Nat) (digest : List Byte → String) (fuel : Nat)
    (delimiter : Delimiter) (hd : delimiter ≠ Delimiter.JSON) (reader : List Byte)
    (hfuel : reader.length < fuel) :
    ∃ data rest, readBlock ByteReader blockSize digest fuel delimiter reader
        = .ok ((⟨getBlock digest data, ⟨0, data.length⟩⟩, data), rest) ∧
      data ++ rest = reader ∧ (data.length ≤ blockSize → rest = []) := by
  obtain ⟨acc, hacc, hcat, ⟨X, hX1, hX2⟩, heof, hne⟩ :=
    lineLoop_spec blockSize fuel [] [] reader hfuel (Nat.zero_le _) (Or.inl rfl)
  refine ⟨acc.buffer, acc.reader, ?_, by simpa using hcat, ?_⟩
  · unfold readBlock readBlockLineDelimited
    rw [if_neg hd]
    have h0 : ([] : List Byte).length = 0 := rfl
    rw [h0] at hacc
    rw [hacc]
    simp only [List.nil_append] at hX1 hX2
    simp [hX1, hX2]
  · intro hle
    cases hE : acc.EOF with
    | true => exact heof hE
    | false => have := (hne hE).1; omega

/-- The chunks of the line policy on a byte sequence: with enough fuel the loop
of `PutBlock` reads the whole input, and the chunks concatenate to it. -/
theorem readBlocks_line_spec (blockSize : Nat) (hpos : 0 < blockSize)
    (digest : List Byte → String) (inner : Nat) (delimiter : Delimiter)
    (hd : delimiter ≠ Delimiter.JSON) :
    ∀ (fuel : Nat) (reader : List Byte), reader.length < fuel → reader.length < inner →
      ∃ chunks, readBlocks ByteReader blockSize digest inner delimiter fuel reader
          = .ok (chunks, []) ∧
        (chunks.map (fun c => c.2)).flatten = reader ∧
        ∀ c ∈ chunks, c.1 = ⟨getBlock digest c.2, ⟨0, c.2.length⟩⟩ := by
  intro fuel
  induction fuel with
  | zero => intro reader h; simp at h
  | succ fuel ih =>
    intro reader hfuel hinner
    obtain ⟨data, rest, hrb, hcat, hshort⟩ :=
      readBlock_line_spec blockSize digest inner delimiter hd reader hinner
    unfold readBlocks
    rw [hrb]
    by_cases hlt : data.length < blockSize
    · have hrest : rest = [] := hshort (Nat.le_of_lt hlt)
      subst hrest
      refine ⟨[(⟨getBlock digest data, ⟨0, data.length⟩⟩, data)], ?_, ?_, ?_⟩
      · simp [hlt]
      · simpa using hcat
      · simp
    · have hlen : reader.length = data.length + rest.length := by rw [← hcat]; simp
      obtain ⟨chunks, hch, hjoin, hall⟩ := ih rest (by omega) (by omega)
      refine ⟨(⟨getBlock digest data, ⟨0, data.length⟩⟩, data) :: chunks, ?_, ?_, ?_⟩
      · simp [hlt, hch]
      · simp [hjoin, hcat]
      · intro c hc
        rcases List.mem_cons.1 hc with rfl | hc
        · rfl
        · exact hall c hc

/-- The reply of the `PutBlock` loop is the list of the block references of the
chunks it reads, whatever the reader and the store. -/
theorem putBlockLoop_fst {ρ : Type} (R : Reader ρ) (blockSize : Nat)
    (digest : List Byte → String) (inner : Nat) (delimiter : Delimiter) :
    ∀ (fuel : Nat) (reader : ρ) (result : List BlockRef) (store : BlockStore),
      (putBlockLoop R blockSize digest inner delimiter fuel reader result store).1 =
        (readBlocks R blockSize digest inner delimiter fuel reader).map
          (fun p => result ++ p.1.map (fun c => c.1)) := by
  intro fuel
  induction fuel with
  | zero => intro _ _ _; rfl
  | succ fuel ih =>
    intro reader result store
    unfold putBlockLoop readBlocks putOneBlock
    cases hrb : readBlock R blockSize digest inner delimiter reader with
    | error e => rfl
    | ok v =>
      obtain ⟨⟨blockRef, data⟩, reader1⟩ := v
      by_cases hs : store.get blockRef.Block.Hash = none
      · by_cases hlt : blockRef.Range.Upper - blockRef.Range.Lower < blockSize
        · simp [hs, hlt, Except.map]
        · simp only [hs, hlt, if_true, if_false]
          rw [ih]
          cases readBlocks R blockSize digest inner delimiter fuel reader1 with
          | error e => rfl
          | ok w => simp [Except.map]
      · by_cases hlt : blockRef.Range.Upper - blockRef.Range.Lower < blockSize
        · simp [hs, hlt, Except.map]
        · simp only [hs, hlt, if_false]
          rw [ih]
          cases readBlocks R blockSize digest inner delimiter fuel reader1 with
          | error e => rfl
          | ok w => simp [Except.map]

/-- A byte sequence of at most `blockSize` bytes is read as one chunk. -/
theorem readBlock_line_whole (blockSize : Nat) (digest : List Byte → String) (fuel : Nat)
    (delimiter : Delimiter) (hd : delimiter ≠ Delimiter.JSON) (input : List Byte)
    (hfuel : input.length < fuel) (hle : input.length ≤ blockSize) :
    readBlock ByteReader blockSize digest fuel delimiter input
      = .ok ((⟨getBlock digest input, ⟨0, input.length⟩⟩, input), []) := by
  obtain ⟨data, rest, hrb, hcat, hshort⟩ :=
    readBlock_line_spec blockSize digest fuel delimiter hd input hfuel
  have hdl : data.length ≤ blockSize := by
    have : input.length = data.length + rest.length := by rw [← hcat]; simp
    omega
  have hrest := hshort hdl
  subst hrest
  simp at hcat
  subst hcat
  exact hrb

/-- Shape of a successful reply of the `PutBlock` loop: every block reference
added before the last one is at least `blockSize` long, the last one is
shorter. -/
theorem putBlockLoop_shape {ρ : Type} (R : Reader ρ) (blockSize : Nat)
    (digest : List Byte → String) (inner : Nat) (delimiter : Delimiter) :
    ∀ (fuel : Nat) (reader : ρ) (result : List BlockRef) (store : BlockStore)
      (refs : List BlockRef),
      (putBlockLoop R blockSize digest inner delimiter fuel reader result store).1 = .ok refs →
      ∃ init last, refs = result ++ init ++ [last] ∧
        last.Range.Upper - last.Range.Lower < blockSize ∧
        ∀ r ∈ init, blockSize ≤ r.Range.Upper - r.Range.Lower := by
  intro fuel
  induction fuel with
  | zero => intro _ _ _ refs h; simp [putBlockLoop] at h
  | succ fuel ih =>
    intro reader result store refs h
    unfold putBlockLoop at h
    cases hp : putOneBlock R blockSize digest inner delimiter reader store with
    | mk res store1 =>
      rw [hp] at h
      cases res with
      | error e => simp at h
      | ok v =>
        obtain ⟨blockRef, reader1⟩ := v
        by_cases hlt : blockRef.Range.Upper - blockRef.Range.Lower < blockSize
        · simp only [hlt, if_true] at h
          injection h with h
          exact ⟨[], blockRef, by simp [← h], hlt, by simp⟩
        · simp only [hlt, if_false] at h
          obtain ⟨init, last, hrefs, hlast, hinit⟩ := ih reader1 _ store1 refs h
          refine ⟨blockRef :: init, last, by simp [hrefs], hlast, ?_⟩
          intro r hr
          rcases List.mem_cons.1 hr with rfl | hr
          · omega
          · exact hinit r hr

/-! ## The block store -/

theorem BlockStore.get_WriteFile_same (store : BlockStore) (h : String) (d : List Byte) :
    (store.WriteFile h d).get h = some d := by
  induction store with
  | nil => simp [BlockStore.WriteFile, BlockStore.get]
  | cons e rest ih =>
    obtain ⟨k, v⟩ := e
    unfold BlockStore.WriteFile
    by_cases hk : k = h
    · simp [hk, BlockStore.get]
    · simp [hk, BlockStore.get, ih]

theorem BlockStore.get_WriteFile_other (store : BlockStore) (h h1 : String) (d : List Byte)
    (hne : h1 ≠ h) : (store.WriteFile h d).get h1 = store.get h1 := by
  induction store with
  | nil => simp [BlockStore.WriteFile, BlockStore.get, hne.symm]
  | cons e rest ih =>
    obtain ⟨k, v⟩ := e
    unfold BlockStore.WriteFile
    by_cases hk : k = h
    · subst hk
      simp [BlockStore.get, hne.symm]
    · by_cases hk1 : k = h1
      · subst hk1
        simp [hk, BlockStore.get]
      · simp [hk, hk1, BlockStore.get, ih]

theorem BlockStore.get_none_not_mem (store : BlockStore) (h : String)
    (hn : store.get h = none) : ∀ e ∈ store, e.1 ≠ h := by
  induction store with
  | nil => simp
  | cons e rest ih =>
    obtain ⟨k, v⟩ := e
    unfold BlockStore.get at hn
    by_cases hk : k = h
    · simp [hk] at hn
    · simp only [hk, if_false] at hn
      intro e1 he1
      rcases List.mem_cons.1 he1 with rfl | he1
      · exact hk
      · exact ih hn e1 he1

theorem BlockStore.WriteFile_of_get_none (store : BlockStore) (h : String) (d : List Byte)
    (hn : store.get h = none) : store.WriteFile h d = store ++ [(h, d)] := by
  induction store with
  | nil => rfl
  | cons e rest ih =>
    obtain ⟨k, v⟩ := e
    unfold BlockStore.get at hn
    by_cases hk : k = h
    · simp [hk] at hn
    · simp only [hk, if_false] at hn
      simp [BlockStore.WriteFile, hk, ih hn]

/-- In a store without duplicate names a stored hash has exactly one entry. -/
theorem BlockStore.one_entry (store : BlockStore) (h : String) (b : List Byte)
    (hnd : (store.map Prod.fst).Nodup) (hg : store.get h = some b) :
    (store.filter (fun e => e.1 = h)).length = 1 := by
  induction store with
  | nil => simp [BlockStore.get] at hg
  | cons e rest ih =>
    obtain ⟨k, v⟩ := e
    simp only [List.map_cons, List.nodup_cons, List.mem_map, not_exists, not_and] at hnd
    by_cases hk : k = h
    · subst hk
      have : rest.filter (fun e => e.1 = k) = [] := by
        rw [List.filter_eq_nil_iff]
        intro e he
        simpa using fun heq => hnd.1 e he heq
      simp [this]
    · unfold BlockStore.get at hg
      simp only [hk, if_false] at hg
      simp [hk, ih hnd.2 hg]

/-! ## Hash and buffer receive the same bytes -/

theorem lineLoop_hash {ρ : Type} (R : Reader ρ) (blockSize : Nat) :
    ∀ (fuel : Nat) (buffer hash : List Byte) (bytesWritten : Nat) (reader : ρ) (acc : Accum ρ),
      readBlockLineDelimitedLoop R blockSize fuel buffer hash bytesWritten reader = .ok acc →
      ∃ X, acc.buffer = buffer ++ X ∧ acc.hash = hash ++ X := by
  intro fuel
  induction fuel with
  | zero => intro _ _ _ _ acc h; simp [readBlockLineDelimitedLoop] at h
  | succ fuel ih =>
    intro buffer hash bytesWritten reader acc h
    unfold readBlockLineDelimitedLoop at h
    generalize R.ReadBytes 10 reader = res at h
    obtain ⟨⟨bytes, err⟩, reader1⟩ := res
    simp only at h
    split_ifs at h with h1 h2 h3
    · injection h with h; subst h; exact ⟨bytes, rfl, rfl⟩
    · injection h with h; subst h; exact ⟨bytes, rfl, rfl⟩
    · obtain ⟨X, hX1, hX2⟩ := ih _ _ _ _ acc h
      exact ⟨bytes ++ X, by rw [hX1]; simp, by rw [hX2]; simp⟩

theorem jsonLoop_hash {ρ : Type} (R : Reader ρ) (blockSize inner : Nat) :
    ∀ (fuel : Nat) (buffer hash : List Byte) (bytesWritten : Nat) (decoder : Decoder)
      (reader : ρ) (acc : Accum ρ),
      readBlockJSONDelimitedLoop R blockSize inner fuel buffer hash bytesWritten decoder reader
        = .ok acc →
      ∃ X, acc.buffer = buffer ++ X ∧ acc.hash = hash ++ X := by
  intro fuel
  induction fuel with
  | zero => intro _ _ _ _ _ acc h; simp [readBlockJSONDelimitedLoop] at h
  | succ fuel ih =>
    intro buffer hash bytesWritten decoder reader acc h
    unfold readBlockJSONDelimitedLoop at h
    generalize Decode R inner decoder reader = res at h
    obtain ⟨⟨value, err⟩, decoder1, reader1⟩ := res
    simp only [MarshalJSON] at h
    split_ifs at h with h1 h2 h3
    · injection h with h; subst h; exact ⟨value, rfl, rfl⟩
    · injection h with h; subst h; exact ⟨value, rfl, rfl⟩
    · obtain ⟨X, hX1, hX2⟩ := ih _ _ _ _ _ acc h
      exact ⟨value ++ X, by rw [hX1]; simp, by rw [hX2]; simp⟩

/-- The range of a block reference returned by `readBlock` ends at the length of
the returned data. -/
theorem readBlock_content_addressed_aux {ρ : Type} (R : Reader ρ) (blockSize : Nat)
    (digest : List Byte → String) (fuel : Nat) (delimiter : Delimiter) (reader reader1 : ρ)
    (blockRef : BlockRef) (data : List Byte)
    (h : readBlock R blockSize digest fuel delimiter reader = .ok ((blockRef, data), reader1)) :
    blockRef.Range.Upper = data.length := by
  unfold readBlock at h
  cases hj : (if delimiter = Delimiter.JSON then readBlockJSONDelimited R blockSize fuel [] reader
         else readBlockLineDelimited R blockSize fuel [] reader) with
  | error e => rw [hj] at h; simp at h
  | ok acc =>
    rw [hj] at h
    simp only [Except.ok.injEq, Prod.mk.injEq] at h
    obtain ⟨⟨h1, h2⟩, _⟩ := h
    subst h1 h2
    rfl

/-- C7 (content addressing invariant): every successful `readBlock`, under either
delimiter policy and on any reader, returns a block reference with `Lower = 0`
and `Upper` the length of the returned data, whose block is named by the digest
of exactly the returned data; so the range length is the number of bytes hashed. -/
theorem readBlock_content_addressed {ρ : Type} (R : Reader ρ) (blockSize : Nat)
    (digest : List Byte → String) (fuel : Nat) (delimiter : Delimiter) (reader reader1 : ρ)
    (blockRef : BlockRef) (data : List Byte)
    (h : readBlock R blockSize digest fuel delimiter reader = .ok ((blockRef, data), reader1)) :
    blockRef.Range.Lower = 0 ∧ blockRef.Range.Upper = data.length ∧
      blockRef.Block = getBlock digest data ∧
      blockRef.Range.Upper - blockRef.Range.Lower = data.length := by
  unfold readBlock at h
  by_cases hd : delimiter = Delimiter.JSON
  · rw [if_pos hd] at h
    cases hj : readBlockJSONDelimited R blockSize fuel [] reader with
    | error e => rw [hj] at h; simp at h
    | ok acc =>
      rw [hj] at h
      obtain ⟨X, hX1, hX2⟩ := jsonLoop_hash R blockSize fuel fuel [] [] 0 NewDecoder reader acc hj
      simp only [List.nil_append] at hX1 hX2
      simp only [Except.ok.injEq, Prod.mk.injEq] at h
      obtain ⟨⟨h1, h2⟩, _⟩ := h
      subst h1 h2
      simp [hX1, hX2]
  · rw [if_neg hd] at h
    cases hj : readBlockLineDelimited R blockSize fuel [] reader with
    | error e => rw [hj] at h; simp at h
    | ok acc =>
      rw [hj] at h
      obtain ⟨X, hX1, hX2⟩ := lineLoop_hash R blockSize fuel [] [] 0 reader acc hj
      simp only [List.nil_append] at hX1 hX2
      simp only [Except.ok.injEq, Prod.mk.injEq] at h
      obtain ⟨⟨h1, h2⟩, _⟩ := h
      subst h1 h2
      simp [hX1, hX2]

/-- C7 at concrete inputs: the bytes `a\nb` read with the line policy from a
byte sequence, and the record `[1]` read with the JSON policy from one message,
both with `blockSize = 5`. -/
theorem readBlock_content_addressed_witness :
    (readBlock ByteReader 5 (fun _ => "h") 10 Delimiter.LINE [97, 10, 98]
        = .ok ((⟨⟨"h"⟩, ⟨0, 3⟩⟩, [97, 10, 98]), []) ∧
      readBlock Bufio 5 (fun _ => "h") 10 Delimiter.JSON ⟨⟨[], [91, 49, 93]⟩, [], none⟩
        = .ok ((⟨⟨"h"⟩, ⟨0, 3⟩⟩, [91, 49, 93]), ⟨⟨[], []⟩, [], none⟩)) ∧
      ((⟨⟨"h"⟩, ⟨0, 3⟩⟩ : BlockRef).Range.Lower = 0 ∧
        (⟨⟨"h"⟩, ⟨0, 3⟩⟩ : BlockRef).Range.Upper = [97, 10, 98].length ∧
        (⟨⟨"h"⟩, ⟨0, 3⟩⟩ : BlockRef).Block = getBlock (fun _ => "h") [97, 10, 98] ∧
        (⟨⟨"h"⟩, ⟨0, 3⟩⟩ : BlockRef).Range.Upper - (⟨⟨"h"⟩, ⟨0, 3⟩⟩ : BlockRef).Range.Lower
          = [97, 10, 98].length) ∧
      ((⟨⟨"h"⟩, ⟨0, 3⟩⟩ : BlockRef).Range.Lower = 0 ∧
        (⟨⟨"h"⟩, ⟨0, 3⟩⟩ : BlockRef).Range.Upper = [91, 49, 93].length ∧
        (⟨⟨"h"⟩, ⟨0, 3⟩⟩ : BlockRef).Block = getBlock (fun _ => "h") [91, 49, 93] ∧
        (⟨⟨"h"⟩, ⟨0, 3⟩⟩ : BlockRef).Range.Upper - (⟨⟨"h"⟩, ⟨0, 3⟩⟩ : BlockRef).Range.Lower
          = [91, 49, 93].length) :=
  ⟨⟨by rfl, by rfl⟩,
   readBlock_content_addressed ByteReader 5 (fun _ => "h") 10 Delimiter.LINE
    [97, 10, 98] [] ⟨⟨"h"⟩, ⟨0, 3⟩⟩ [97, 10, 98] (by rfl),
   readBlock_content_addressed Bufio 5 (fun _ => "h") 10 Delimiter.JSON
    ⟨⟨[], [91, 49, 93]⟩, [], none⟩ ⟨⟨[], []⟩, [], none⟩ ⟨⟨"h"⟩, ⟨0, 3⟩⟩ [91, 49, 93] (by rfl)⟩

/-- The cut of the line-delimited loop: when the input is whole lines `pre` that
fit in `blockSize` together with the buffer, then one more line that does not,
the loop returns exactly the buffer, `pre` and that line, before any
end-of-input. -/
theorem lineLoop_cut (blockSize : Nat) :
    ∀ (fuel : Nat) (buffer hash pre l rest : List Byte),
      (pre ++ (l ++ [10]) ++ rest).length < fuel →
      (pre = [] ∨ pre.getLast? = some 10) → 10 ∉ l →
      (buffer ++ pre).length ≤ blockSize → blockSize < (buffer ++ pre).length + l.length + 1 →
      ∃ acc, readBlockLineDelimitedLoop ByteReader blockSize fuel buffer hash buffer.length
            (pre ++ (l ++ [10]) ++ rest) = .ok acc ∧
        acc.buffer = buffer ++ pre ++ (l ++ [10]) ∧ acc.reader = rest ∧ acc.EOF = false := by
  intro fuel
  induction fuel with
  | zero => intro _ _ _ _ _ h; simp at h
  | succ fuel ih =>
    intro buffer hash pre l rest hfuel hpre hl hfit hover
    have hR : ∀ r, ByteReader.ReadBytes 10 r = byteReadBytes 10 r := fun _ => rfl
    cases pre with
    | nil =>
      unfold readBlockLineDelimitedLoop
      have hsplit : [] ++ (l ++ [10]) ++ rest = l ++ 10 :: rest := by simp
      rw [hR, hsplit, byteReadBytes_of_split hl]
      refine ⟨⟨buffer ++ (l ++ [10]), hash ++ (l ++ [10]), false, rest⟩, ?_, by simp, rfl, rfl⟩
      have hbig : buffer.length + (l ++ [10]).length > blockSize := by
        simp at hover ⊢; omega
      simp [hbig]
      intro h
      simp at hbig
      omega
    | cons a pre1 =>
      have hlast : (a :: pre1).getLast? = some 10 := by
        rcases hpre with h | h
        · exact absurd h (by simp)
        · exact h
      have hmem : (10 : Byte) ∈ a :: pre1 := List.mem_of_getLast?_eq_some hlast
      rcases byteReadBytes_cases 10 (a :: pre1) with ⟨l1, p2, hp, hl1, _⟩ | ⟨hn, _⟩
      · rw [hp] at hlast hfit hover hfuel ⊢
        have hp2 : p2 = [] ∨ p2.getLast? = some 10 := by
          cases p2 with
          | nil => exact Or.inl rfl
          | cons b p3 =>
            right
            have : (l1 ++ 10 :: b :: p3).getLast? = (b :: p3).getLast? := by
              have h1 : l1 ++ 10 :: b :: p3 = (l1 ++ [10]) ++ (b :: p3) := by simp
              rw [h1, List.getLast?_append_of_ne_nil _ (by simp)]
            rw [this] at hlast
            exact hlast
        have hreader : l1 ++ 10 :: p2 ++ (l ++ [10]) ++ rest
            = l1 ++ 10 :: (p2 ++ (l ++ [10]) ++ rest) := by simp
        unfold readBlockLineDelimitedLoop
        rw [hR, hreader, byteReadBytes_of_split hl1]
        have hsmall : ¬ buffer.length + (l1 ++ [10]).length > blockSize := by
          simp at hfit ⊢; omega
        have hlen1 : buffer.length + (l1 ++ [10]).length = (buffer ++ (l1 ++ [10])).length := by
          simp
        obtain ⟨acc, hacc, hbuf, hrd, heof⟩ :=
          ih (buffer ++ (l1 ++ [10])) (hash ++ (l1 ++ [10])) p2 l rest
            (by simp at hfuel ⊢; omega) hp2 hl
            (by simp at hfit ⊢; omega) (by simp at hover ⊢; omega)
        refine ⟨acc, ?_, ?_, hrd, heof⟩
        · simp only [ne_eq, not_true_eq_false, false_and, if_false, hsmall]
          rw [hlen1]
          simpa using hacc
        · rw [hbuf]; simp
      · exact absurd hmem hn

/-- C9 (line-delimited chunk boundaries): on every byte sequence
`readBlockLineDelimited` returns a chunk that is a prefix of the input.  The
chunk is cut at the first line boundary at which the accumulated length exceeds
`blockSize`: whenever the input is whole lines `pre` of at most `blockSize`
bytes followed by a line `l` that takes the length beyond `blockSize`, the chunk
is exactly `pre` and that line and the rest stays in the reader.  A chunk
returned before the reader reported end-of-input is longer than `blockSize`,
ends with a newline, and without its last line has at most `blockSize` bytes; a
chunk ended by end-of-input is the whole input. -/
theorem readBlockLineDelimited_boundary (blockSize fuel : Nat) (input : List Byte)
    (hfuel : input.length < fuel) :
    ∃ acc, readBlockLineDelimited ByteReader blockSize fuel [] input = .ok acc ∧
      acc.buffer ++ acc.reader = input ∧
      (∀ pre l rest, input = pre ++ (l ++ [10]) ++ rest →
        (pre = [] ∨ pre.getLast? = some 10) → 10 ∉ l →
        pre.length ≤ blockSize → blockSize < pre.length + l.length + 1 →
        acc.buffer = pre ++ (l ++ [10]) ∧ acc.reader = rest ∧ acc.EOF = false) ∧
      (acc.EOF = false →
        blockSize < acc.buffer.length ∧ acc.buffer.getLast? = some 10 ∧
        ∃ pre l, acc.buffer = pre ++ (l ++ [10]) ∧ 10 ∉ l ∧ pre.length ≤ blockSize ∧
          (pre = [] ∨ pre.getLast? = some 10)) ∧
      (acc.EOF = true → acc.reader = [] ∧ acc.buffer = input) := by
  obtain ⟨acc, hacc, hcat, _, heof, hne⟩ :=
    lineLoop_spec blockSize fuel [] [] input hfuel (Nat.zero_le _) (Or.inl rfl)
  have hcat1 : acc.buffer ++ acc.reader = input := by simpa using hcat
  refine ⟨acc, hacc, hcat1, ?_, ?_, ?_⟩
  · intro pre l rest hin hpre hl hfit hover
    subst hin
    obtain ⟨acc1, hacc1, hbuf, hrd, he⟩ :=
      lineLoop_cut blockSize fuel [] [] pre l rest hfuel hpre hl (by simpa using hfit)
        (by simpa using hover)
    have hsame : acc1 = acc := by
      have h1 : (Except.ok acc1 : Except Err (Accum (List Byte))) = Except.ok acc :=
        hacc1.symm.trans hacc
      injection h1
    subst hsame
    exact ⟨by simpa using hbuf, hrd, he⟩
  · intro hE
    obtain ⟨hlen, pre, l, hb, hl, hpre, hlast⟩ := hne hE
    refine ⟨hlen, ?_, pre, l, hb, hl, hpre, hlast⟩
    rw [hb, ← List.append_assoc]
    simp [List.getLast?_append]
  · intro hE
    have hr := heof hE
    refine ⟨hr, ?_⟩
    rw [hr, List.append_nil] at hcat1
    exact hcat1

/-- C9 at a concrete input: of `ab\ncdefg\nhi` with `blockSize = 5` the chunk is
`ab\ncdefg\n` (the line `ab\n` fits, the line `cdefg\n` passes the threshold)
and `hi` stays in the reader. -/
theorem readBlockLineDelimited_boundary_witness :
    ∃ acc, readBlockLineDelimited ByteReader 5 20 []
        [97, 98, 10, 99, 100, 101, 102, 103, 10, 104, 105] = .ok acc ∧
      acc.buffer = [97, 98, 10, 99, 100, 101, 102, 103, 10] ∧ acc.reader = [104, 105] ∧
      acc.EOF = false :=
  (readBlockLineDelimited_boundary 5 20 [97, 98, 10, 99, 100, 101, 102, 103, 10, 104, 105]
    (by decide)).imp (fun _ h =>
      ⟨h.1, h.2.2.1 [97, 98, 10] [99, 100, 101, 102, 103] [104, 105] (by rfl) (by decide)
        (by decide) (by decide) (by decide)⟩)

/-! ## The stream adapter delivers the bytes of a stream without empty values -/

theorem putBlockReader.Read_spec (r : putBlockReader) (k : Nat) (hk : 0 < k)
    (hgood : ∀ m ∈ r.server, m.Value ≠ []) :
    (r.flat = [] ∧ r.Read k = (([], some Err.EOF), r)) ∨
    (∃ data r1, r.Read k = ((data, none), r1) ∧ data ≠ [] ∧ data.length ≤ k ∧
      data ++ r1.flat = r.flat ∧ (∀ m ∈ r1.server, m.Value ≠ []) ∧ r1.size < r.size) := by
  obtain ⟨server, buffer⟩ := r
  have hk0 : k ≠ 0 := Nat.pos_iff_ne_zero.1 hk
  cases buffer with
  | nil =>
    cases server with
    | nil =>
      left
      simp [putBlockReader.flat, putBlockReader.Read, Recv]
    | cons m rest =>
      right
      have hm : m.Value ≠ [] := hgood m (List.mem_cons_self _ _)
      refine ⟨m.Value.take k, ⟨rest, m.Value.drop k⟩, ?_, ?_, ?_, ?_, ?_, ?_⟩
      · simp [putBlockReader.Read, Recv, bufferRead, hm]
      · cases hv : m.Value with
        | nil => exact absurd hv hm
        | cons a as =>
          obtain ⟨k1, rfl⟩ := Nat.exists_eq_succ_of_ne_zero hk0
          simp
      · simp [List.length_take]
      · simp [putBlockReader.flat, ← List.append_assoc]
      · intro m1 hm1
        exact hgood m1 (List.mem_cons_of_mem _ hm1)
      · simp only [putBlockReader.size, List.length_drop, List.length_nil, List.map_cons,
          List.sum_cons]
        omega
  | cons a as =>
    right
    refine ⟨(a :: as).take k, ⟨server, (a :: as).drop k⟩, ?_, ?_, ?_, ?_, hgood, ?_⟩
    · simp [putBlockReader.Read, bufferRead]
    · obtain ⟨k1, rfl⟩ := Nat.exists_eq_succ_of_ne_zero hk0
      simp
    · simp [List.length_take]
    · simp only [putBlockReader.flat, ← List.append_assoc, List.take_append_drop]
    · simp only [putBlockReader.size, List.length_drop, List.length_cons]
      omega

theorem fill_spec (b : BufioReader) (herr : b.err = none)
    (hgood : ∀ m ∈ b.rd.server, m.Value ≠ []) (hlen : b.buf.length < defaultBufSize) :
    (b.rd.flat = [] ∧ fill b = ⟨b.rd, b.buf, some Err.EOF⟩) ∨
    (∃ data rd1, fill b = ⟨rd1, b.buf ++ data, none⟩ ∧ data ≠ [] ∧
      data ++ rd1.flat = b.rd.flat ∧ (∀ m ∈ rd1.server, m.Value ≠ []) ∧
      rd1.size < b.rd.size) := by
  have hfill : fill b = fillLoop (99 + 1) b := rfl
  rw [hfill, fillLoop]
  rcases putBlockReader.Read_spec b.rd (defaultBufSize - b.buf.length) (by omega) hgood with
    ⟨hflat, hread⟩ | ⟨data, rd1, hread, hne, _, hcat, hgood1, hsize⟩
  · left
    refine ⟨hflat, ?_⟩
    rw [hread]
    simp
  · right
    refine ⟨data, rd1, ?_, hne, hcat, hgood1, hsize⟩
    rw [hread]
    simp [herr, List.length_pos.2 hne]

/-- `ReadSlice` on a steady reader: a line ending with the delimiter, a full
buffer without the delimiter, or the delimiter-free rest with `io.EOF`. -/
theorem ReadSlice_spec (d : Byte) :
    ∀ (fuel : Nat) (b : BufioReader), b.steady → b.rd.size + 1 < fuel →
      ∃ frag e b1, ReadSlice d fuel b = ((frag, e), b1) ∧ b1.steady ∧
        b.flat = frag ++ b1.flat ∧ b1.rd.size ≤ b.rd.size ∧
        ((e = none ∧ ∃ l, frag = l ++ [d] ∧ d ∉ l) ∨
         (e = some Err.ErrBufferFull ∧ d ∉ frag ∧ frag ≠ []) ∨
         (e = some Err.EOF ∧ d ∉ frag ∧ b1.flat = [])) := by
  intro fuel
  induction fuel with
  | zero => intro b _ h; omega
  | succ fuel ih =>
    intro b hst hfuel
    obtain ⟨herr, hgood⟩ := hst
    unfold ReadSlice
    cases hidx : IndexByte b.buf d with
    | some i =>
      obtain ⟨l, r, hbuf, hl, hlen⟩ := IndexByte_some hidx
      refine ⟨l ++ [d], none, { b with buf := r }, ?_, ⟨herr, hgood⟩, ?_, le_refl _, ?_⟩
      · subst hlen
        simp [hbuf, List.take_append_eq_append_take, List.drop_append_eq_append_drop]
      · simp [BufioReader.flat, hbuf]
      · exact Or.inl ⟨rfl, l, rfl, hl⟩
    | none =>
      have hnot := IndexByte_none hidx
      simp only [herr, ne_eq, not_true_eq_false, if_false]
      by_cases hfull : b.buf.length ≥ defaultBufSize
      · refine ⟨b.buf, some Err.ErrBufferFull, ⟨b.rd, [], none⟩, ?_, ⟨rfl, hgood⟩, ?_, le_refl _, ?_⟩
        · simp [hfull]
        · simp [BufioReader.flat]
        · refine Or.inr (Or.inl ⟨rfl, hnot, ?_⟩)
          intro h0
          rw [h0] at hfull
          simp [defaultBufSize] at hfull
      · rw [if_neg hfull]
        rcases fill_spec b herr hgood (by omega) with
          ⟨hflat, hfill⟩ | ⟨data, rd1, hfill, hne, hcat, hgood1, hsize⟩
        · rw [hfill]
          obtain ⟨fuel1, rfl⟩ : ∃ f, fuel = f + 1 := ⟨fuel - 1, by omega⟩
          unfold ReadSlice
          refine ⟨b.buf, some Err.EOF, ⟨b.rd, [], none⟩, ?_, ⟨rfl, hgood⟩, ?_, le_refl _, ?_⟩
          · simp [hidx]
          · simp [BufioReader.flat, hflat]
          · exact Or.inr (Or.inr ⟨rfl, hnot, by simp [BufioReader.flat, hflat]⟩)
        · rw [hfill]
          obtain ⟨frag, e, b1, hrs, hst1, hflat1, hsz1, hcases⟩ :=
            ih ⟨rd1, b.buf ++ data, none⟩ ⟨rfl, hgood1⟩ (by simp only; omega)
          refine ⟨frag, e, b1, hrs, hst1, ?_, ?_, hcases⟩
          · rw [← hflat1]
            simp [BufioReader.flat, hcat]
          · simp only at hsz1
            omega

theorem BufioReader.flat_length_le (b : BufioReader) : b.flat.length ≤ b.buf.length + b.rd.size := by
  obtain ⟨⟨server, buffer⟩, buf, err⟩ := b
  simp only [BufioReader.flat, putBlockReader.flat, putBlockReader.size, List.length_append]
  have : ∀ (l : List PutBlockRequest),
      (l.map (fun m => m.Value)).flatten.length ≤ (l.map (fun m => m.Value.length + 1)).sum := by
    intro l
    induction l with
    | nil => simp
    | cons m l ih => simp only [List.map_cons, List.flatten_cons, List.length_append,
        List.sum_cons]; omega
  have := this server
  omega

/-- `ReadBytes` of the buffered reader on a steady stream is `ReadBytes` on the
bytes the stream still holds. -/
theorem ReadBytesLoop_spec (d : Byte) (inner : Nat) :
    ∀ (fuel : Nat) (full : List Byte) (b : BufioReader), b.steady → b.flat.length < fuel →
      b.rd.size + 1 < inner →
      ∃ b1, ReadBytesLoop d inner fuel full b
          = ((full ++ (byteReadBytes d b.flat).1.1, (byteReadBytes d b.flat).1.2), b1) ∧
        b1.steady ∧ b1.flat = (byteReadBytes d b.flat).2 := by
  intro fuel
  induction fuel with
  | zero => intro _ b _ h; omega
  | succ fuel ih =>
    intro full b hst hfuel hinner
    obtain ⟨frag, e, b1, hrs, hst1, hflat, hsz, hcases⟩ := ReadSlice_spec d inner b hst hinner
    unfold ReadBytesLoop
    rw [hrs]
    rcases hcases with ⟨rfl, l, rfl, hl⟩ | ⟨rfl, hn, hne⟩ | ⟨rfl, hn, hnil⟩
    · refine ⟨b1, ?_, hst1, ?_⟩
      · rw [hflat, List.append_assoc, List.singleton_append, byteReadBytes_of_split hl]
      · rw [hflat, List.append_assoc, List.singleton_append, byteReadBytes_of_split hl]
    · have hlen : b1.flat.length < fuel := by
        have h1 : b.flat.length = frag.length + b1.flat.length := by rw [hflat]; simp
        have h2 : 0 < frag.length := List.length_pos.2 hne
        omega
      obtain ⟨b2, hrb, hst2, hflat2⟩ := ih (full ++ frag) b1 hst1 hlen (by omega)
      refine ⟨b2, ?_, hst2, ?_⟩
      · simp only [if_true]
        rw [hrb, hflat, byteReadBytes_append hn]
        simp
      · rw [hflat2, hflat, byteReadBytes_append hn]
    · refine ⟨b1, ?_, hst1, ?_⟩
      · rw [hflat, hnil, List.append_nil, byteReadBytes_of_not_mem hn]
        simp
      · rw [hflat, hnil, List.append_nil, byteReadBytes_of_not_mem hn]

theorem Bufio_ReadBytes_spec (d : Byte) (b : BufioReader) (hst : b.steady) :
    ∃ b1, Bufio.ReadBytes d b = ((byteReadBytes d b.flat).1, b1) ∧ b1.steady ∧
      b1.flat = (byteReadBytes d b.flat).2 := by
  have hsize : b.size = b.buf.length + b.rd.size := by
    simp [BufioReader.size, putBlockReader.size, Nat.add_assoc]
  have hle := b.flat_length_le
  obtain ⟨b1, h, hst1, hflat⟩ :=
    ReadBytesLoop_spec d (b.size + 2) (b.size + 2) [] b hst (by omega) (by omega)
  exact ⟨b1, by simpa [Bufio, BufioReader.ReadBytes] using h, hst1, hflat⟩

/-! ## The line policy on a stream is the line policy on its bytes -/

theorem lineLoop_sim (blockSize : Nat) :
    ∀ (fuel : Nat) (buffer hash : List Byte) (bytesWritten : Nat) (b : BufioReader)
      (acc : Accum (List Byte)), b.steady →
      readBlockLineDelimitedLoop ByteReader blockSize fuel buffer hash bytesWritten b.flat
        = .ok acc →
      ∃ b1, readBlockLineDelimitedLoop Bufio blockSize fuel buffer hash bytesWritten b
          = .ok ⟨acc.buffer, acc.hash, acc.EOF, b1⟩ ∧ b1.flat = acc.reader ∧ b1.steady := by
  intro fuel
  induction fuel with
  | zero => intro _ _ _ _ acc _ h; simp [readBlockLineDelimitedLoop] at h
  | succ fuel ih =>
    intro buffer hash bytesWritten b acc hst h
    obtain ⟨b1, hrb, hst1, hflat1⟩ := Bufio_ReadBytes_spec 10 b hst
    unfold readBlockLineDelimitedLoop at h ⊢
    have hR : ByteReader.ReadBytes 10 b.flat = byteReadBytes 10 b.flat := rfl
    rw [hR] at h
    rw [hrb]
    generalize byteReadBytes 10 b.flat = res at h hflat1
    obtain ⟨⟨bytes, err⟩, rest⟩ := res
    simp only at h hflat1 ⊢
    split_ifs at h ⊢ with h1 h2 h3
    · injection h with h; subst h; exact ⟨b1, rfl, hflat1, hst1⟩
    · injection h with h; subst h; exact ⟨b1, rfl, hflat1, hst1⟩
    · subst hflat1
      exact ih _ _ _ b1 acc hst1 h

theorem readBlock_line_sim (blockSize : Nat) (digest : List Byte → String) (fuel : Nat)
    (delimiter : Delimiter) (hd : delimiter ≠ Delimiter.JSON) (b : BufioReader)
    (hst : b.steady) (out : BlockRef × List Byte) (rest : List Byte)
    (h : readBlock ByteReader blockSize digest fuel delimiter b.flat = .ok (out, rest)) :
    ∃ b1, readBlock Bufio blockSize digest fuel delimiter b = .ok (out, b1) ∧
      b1.flat = rest ∧ b1.steady := by
  unfold readBlock readBlockLineDelimited at h ⊢
  rw [if_neg hd] at h ⊢
  cases hl : readBlockLineDelimitedLoop ByteReader blockSize fuel [] [] 0 b.flat with
  | error e => rw [hl] at h; simp at h
  | ok acc =>
    rw [hl] at h
    obtain ⟨b1, hb, hflat, hst1⟩ := lineLoop_sim blockSize fuel [] [] 0 b acc hst hl
    rw [hb]
    simp only [Except.ok.injEq, Prod.mk.injEq] at h
    obtain ⟨h1, h2⟩ := h
    exact ⟨b1, by simp [h1], by rw [hflat, h2], hst1⟩

theorem readBlocks_line_sim (blockSize : Nat) (digest : List Byte → String) (inner : Nat)
    (delimiter : Delimiter) (hd : delimiter ≠ Delimiter.JSON) :
    ∀ (fuel : Nat) (b : BufioReader) (chunks : List (BlockRef × List Byte)) (rest : List Byte),
      b.steady →
      readBlocks ByteReader blockSize digest inner delimiter fuel b.flat = .ok (chunks, rest) →
      ∃ b1, readBlocks Bufio blockSize digest inner delimiter fuel b = .ok (chunks, b1) ∧
        b1.flat = rest := by
  intro fuel
  induction fuel with
  | zero => intro _ _ _ _ h; simp [readBlocks] at h
  | succ fuel ih =>
    intro b chunks rest hst h
    unfold readBlocks at h ⊢
    cases hrb : readBlock ByteReader blockSize digest inner delimiter b.flat with
    | error e => rw [hrb] at h; simp at h
    | ok v =>
      obtain ⟨⟨blockRef, data⟩, rest1⟩ := v
      rw [hrb] at h
      obtain ⟨b1, hb, hflat, hst1⟩ :=
        readBlock_line_sim blockSize digest inner delimiter hd b hst _ _ hrb
      rw [hb]
      simp only at h ⊢
      split_ifs at h ⊢ with hlt
      · simp only [Except.ok.injEq, Prod.mk.injEq] at h
        exact ⟨b1, by simp [h.1], by rw [hflat, h.2]⟩
      · subst hflat
        cases hrec : readBlocks ByteReader blockSize digest inner delimiter fuel b1.flat with
        | error e => rw [hrec] at h; simp at h
        | ok w =>
          obtain ⟨chunks1, rest2⟩ := w
          rw [hrec] at h
          obtain ⟨b2, hb2, hflat2⟩ := ih b1 chunks1 rest2 hst1 hrec
          rw [hb2]
          simp only [Except.ok.injEq, Prod.mk.injEq] at h
          exact ⟨b2, by simp [h.1], by rw [hflat2, h.2]⟩

/-- `PutBlock` with the line policy, on a stream whose messages after the first
carry data, replies with the block references of the chunks of its bytes. -/
theorem PutBlock_line_stream (blockSize : Nat) (digest : List Byte → String) (fuel : Nat)
    (first : PutBlockRequest) (rest : PutBlockServer) (store : BlockStore)
    (hd : first.Delimiter ≠ Delimiter.JSON) (hrest : ∀ m ∈ rest, m.Value ≠ [])
    (chunks : List (BlockRef × List Byte)) (left : List Byte)
    (h : readBlocks ByteReader blockSize digest fuel first.Delimiter fuel
          (first.Value ++ (rest.map (fun m => m.Value)).flatten) = .ok (chunks, left)) :
    (PutBlock blockSize digest fuel (first :: rest) store).1 = .ok (chunks.map (fun c => c.1)) ∧
    ∃ b1, readBlocks Bufio blockSize digest fuel first.Delimiter fuel
        ⟨⟨rest, first.Value⟩, [], none⟩ = .ok (chunks, b1) ∧ b1.flat = left := by
  have hflat : (⟨⟨rest, first.Value⟩, [], none⟩ : BufioReader).flat
      = first.Value ++ (rest.map (fun m => m.Value)).flatten := by
    simp [BufioReader.flat, putBlockReader.flat]
  rw [← hflat] at h
  obtain ⟨b1, hb, hb1⟩ :=
    readBlocks_line_sim blockSize digest fuel first.Delimiter hd fuel _ chunks left
      ⟨rfl, hrest⟩ h
  refine ⟨?_, b1, hb, hb1⟩
  simp only [PutBlock, Recv]
  rw [putBlockLoop_fst, hb]
  simp [Except.map]

/-- C1 (line-delimited reconstruction): for every byte sequence and positive
`blockSize`, the loop of `PutBlock` with the line policy returns (given fuel
beyond the input length), reads the whole input, and the data of its chunks,
concatenated in order, is the input; the reply lists the chunks' block
references.  The same holds for `PutBlock` on every stream that delivers the
input in messages of which only the first may be empty. -/
theorem PutBlock_line_reconstruction (blockSize : Nat) (digest : List Byte → String)
    (fuel : Nat) (delimiter : Delimiter) (input : List Byte) (store : BlockStore)
    (hpos : 0 < blockSize) (hd : delimiter ≠ Delimiter.JSON) (hfuel : input.length < fuel) :
    ∃ chunks, readBlocks ByteReader blockSize digest fuel delimiter fuel input = .ok (chunks, []) ∧
      (chunks.map (fun c => c.2)).flatten = input ∧
      (∀ c ∈ chunks, c.1 = ⟨getBlock digest c.2, ⟨0, c.2.length⟩⟩) ∧
      (putBlockLoop ByteReader blockSize digest fuel delimiter fuel input [] store).1
        = .ok (chunks.map (fun c => c.1)) ∧
      ∀ (value : List Byte) (rest : PutBlockServer), (∀ m ∈ rest, m.Value ≠ []) →
        value ++ (rest.map (fun m => m.Value)).flatten = input →
        (PutBlock blockSize digest fuel (⟨value, delimiter⟩ :: rest) store).1
          = .ok (chunks.map (fun c => c.1)) ∧
        ∃ b1, readBlocks Bufio blockSize digest fuel delimiter fuel ⟨⟨rest, value⟩, [], none⟩
          = .ok (chunks, b1) ∧ b1.flat = [] := by
  obtain ⟨chunks, hch, hjoin, hall⟩ :=
    readBlocks_line_spec blockSize hpos digest fuel delimiter hd fuel input hfuel hfuel
  refine ⟨chunks, hch, hjoin, hall, ?_, ?_⟩
  · rw [putBlockLoop_fst, hch]
    simp [Except.map]
  · intro value rest hrest hin
    subst hin
    exact PutBlock_line_stream blockSize digest fuel ⟨value, delimiter⟩ rest store hd hrest
      chunks [] hch

/-- C1 at a concrete input: `ab\ncdefg\nhi` with `blockSize = 5`. -/
theorem PutBlock_line_reconstruction_witness :
    ∃ chunks, readBlocks ByteReader 5 (fun _ => "h") 12 Delimiter.LINE 12
        [97, 98, 10, 99, 100, 101, 102, 103, 10, 104, 105] = .ok (chunks, []) ∧
      (chunks.map (fun c => c.2)).flatten = [97, 98, 10, 99, 100, 101, 102, 103, 10, 104, 105] ∧
      (∀ c ∈ chunks, c.1 = ⟨getBlock (fun _ => "h") c.2, ⟨0, c.2.length⟩⟩) ∧
      (putBlockLoop ByteReader 5 (fun _ => "h") 12 Delimiter.LINE 12
        [97, 98, 10, 99, 100, 101, 102, 103, 10, 104, 105] [] []).1
        = .ok (chunks.map (fun c => c.1)) ∧
      ∀ (value : List Byte) (rest : PutBlockServer), (∀ m ∈ rest, m.Value ≠ []) →
        value ++ (rest.map (fun m => m.Value)).flatten
          = [97, 98, 10, 99, 100, 101, 102, 103, 10, 104, 105] →
        (PutBlock 5 (fun _ => "h") 12 (⟨value, Delimiter.LINE⟩ :: rest) []).1
          = .ok (chunks.map (fun c => c.1)) ∧
        ∃ b1, readBlocks Bufio 5 (fun _ => "h") 12 Delimiter.LINE 12 ⟨⟨rest, value⟩, [], none⟩
          = .ok (chunks, b1) ∧ b1.flat = [] :=
  PutBlock_line_reconstruction 5 (fun _ => "h") 12 Delimiter.LINE
    [97, 98, 10, 99, 100, 101, 102, 103, 10, 104, 105] [] (by decide) (by decide) (by decide)

theorem putBlockLoop_succ {ρ : Type} (R : Reader ρ) (blockSize : Nat)
    (digest : List Byte → String) (inner : Nat) (delimiter : Delimiter) (fuel : Nat)
    (reader : ρ) (result : List BlockRef) (store : BlockStore) :
    putBlockLoop R blockSize digest inner delimiter (fuel + 1) reader result store =
      match putOneBlock R blockSize digest inner delimiter reader store with
      | (.error e, store1) => (.error (nilBlockRef e), store1)
      | (.ok (blockRef, reader1), store1) =>
        if blockRef.Range.Upper - blockRef.Range.Lower < blockSize then
          (.ok (result ++ [blockRef]), store1)
        else putBlockLoop R blockSize digest inner delimiter fuel reader1 (result ++ [blockRef])
          store1 := by
  rw [putBlockLoop]

theorem putOneBlock_fst {ρ : Type} (R : Reader ρ) (blockSize : Nat)
    (digest : List Byte → String) (fuel : Nat) (delimiter : Delimiter) (reader reader1 : ρ)
    (store : BlockStore) (blockRef : BlockRef) (data : List Byte)
    (h : readBlock R blockSize digest fuel delimiter reader = .ok ((blockRef, data), reader1)) :
    (putOneBlock R blockSize digest fuel delimiter reader store).1 = .ok (blockRef, reader1) := by
  unfold putOneBlock
  rw [h]
  simp only
  split_ifs <;> rfl

/-- C6 (termination at the threshold): for a line-delimited input of `n` bytes the
loop of `PutBlock` replies with exactly one block reference `[0, n)` when
`n < blockSize`; when `n = blockSize` the first chunk has the range
`[0, blockSize)` and does not end the loop, which goes on to read a further
chunk (and then, for a positive `blockSize`, replies with that chunk and the
empty one).  In every successful reply only the last block reference is shorter
than `blockSize`.  The same replies come from `PutBlock` on every stream that
delivers the input in messages of which only the first may be empty. -/
theorem PutBlock_threshold (blockSize : Nat) (digest : List Byte → String) (fuel : Nat)
    (delimiter : Delimiter) (input : List Byte) (store : BlockStore)
    (hd : delimiter ≠ Delimiter.JSON) (hfuel : input.length < fuel) :
    (input.length < blockSize →
      (putBlockLoop ByteReader blockSize digest fuel delimiter fuel input [] store).1
        = .ok [⟨getBlock digest input, ⟨0, input.length⟩⟩]) ∧
    (input.length = blockSize →
      readBlock ByteReader blockSize digest fuel delimiter input
        = .ok ((⟨getBlock digest input, ⟨0, blockSize⟩⟩, input), []) ∧
      putBlockLoop ByteReader blockSize digest fuel delimiter fuel input [] store
        = putBlockLoop ByteReader blockSize digest fuel delimiter (fuel - 1) []
            [⟨getBlock digest input, ⟨0, blockSize⟩⟩]
            (putOneBlock ByteReader blockSize digest fuel delimiter input store).2 ∧
      (0 < blockSize →
        (putBlockLoop ByteReader blockSize digest fuel delimiter fuel input [] store).1
          = .ok [⟨getBlock digest input, ⟨0, blockSize⟩⟩, ⟨getBlock digest [], ⟨0, 0⟩⟩])) ∧
    (∀ {ρ : Type} (R : Reader ρ) (reader : ρ) (refs : List BlockRef),
      (putBlockLoop R blockSize digest fuel delimiter fuel reader [] store).1 = .ok refs →
      ∃ init last, refs = init ++ [last] ∧
        last.Range.Upper - last.Range.Lower < blockSize ∧
        ∀ r ∈ init, blockSize ≤ r.Range.Upper - r.Range.Lower) ∧
    (∀ (value : List Byte) (rest : PutBlockServer), (∀ m ∈ rest, m.Value ≠ []) →
      value ++ (rest.map (fun m => m.Value)).flatten = input →
      (input.length < blockSize →
        (PutBlock blockSize digest fuel (⟨value, delimiter⟩ :: rest) store).1
          = .ok [⟨getBlock digest input, ⟨0, input.length⟩⟩]) ∧
      (input.length = blockSize → 0 < blockSize →
        (PutBlock blockSize digest fuel (⟨value, delimiter⟩ :: rest) store).1
          = .ok [⟨getBlock digest input, ⟨0, blockSize⟩⟩, ⟨getBlock digest [], ⟨0, 0⟩⟩])) := by
  obtain ⟨fuel1, rfl⟩ : ∃ f, fuel = f + 1 := ⟨fuel - 1, by omega⟩
  have hshort : input.length < blockSize →
      readBlocks ByteReader blockSize digest (fuel1 + 1) delimiter (fuel1 + 1) input
        = .ok ([(⟨getBlock digest input, ⟨0, input.length⟩⟩, input)], []) := by
    intro hlt
    have hrb := readBlock_line_whole blockSize digest (fuel1 + 1) delimiter hd input hfuel
      (Nat.le_of_lt hlt)
    unfold readBlocks
    rw [hrb]
    simp [hlt]
  have hexact : input.length = blockSize → 0 < blockSize →
      readBlocks ByteReader blockSize digest (fuel1 + 1) delimiter (fuel1 + 1) input
        = .ok ([(⟨getBlock digest input, ⟨0, blockSize⟩⟩, input),
                (⟨getBlock digest [], ⟨0, 0⟩⟩, [])], []) := by
    intro heq hpos
    have hrb := readBlock_line_whole blockSize digest (fuel1 + 1) delimiter hd input hfuel
      (Nat.le_of_eq heq)
    have hrb0 := readBlock_line_whole blockSize digest (fuel1 + 1) delimiter hd []
      (by simp) (Nat.zero_le _)
    obtain ⟨fuel2, hf2⟩ : ∃ f, fuel1 = f + 1 := ⟨fuel1 - 1, by omega⟩
    rw [readBlocks, hrb]
    have hnlt : ¬ input.length < blockSize := by omega
    simp only [Nat.sub_zero, hnlt, if_false]
    rw [hf2, readBlocks, ← hf2, hrb0]
    simp [hpos, heq]
  refine ⟨?_, ?_, ?_, ?_⟩
  · intro hlt
    rw [putBlockLoop_fst, hshort hlt]
    simp [Except.map]
  · intro heq
    have hrb := readBlock_line_whole blockSize digest (fuel1 + 1) delimiter hd input hfuel
      (Nat.le_of_eq heq)
    rw [heq] at hrb
    refine ⟨hrb, ?_, ?_⟩
    · have hp1 := putOneBlock_fst ByteReader blockSize digest (fuel1 + 1) delimiter input []
        store _ _ hrb
      rw [putBlockLoop_succ]
      rcases hpo : putOneBlock ByteReader blockSize digest (fuel1 + 1) delimiter input store with
        ⟨res, store1⟩
      rw [hpo] at hp1
      simp only at hp1
      subst hp1
      simp
    · intro hpos
      rw [putBlockLoop_fst, hexact heq hpos]
      simp [Except.map]
  · intro ρ R reader refs h
    obtain ⟨init, last, hrefs, hlast, hinit⟩ :=
      putBlockLoop_shape R blockSize digest (fuel1 + 1) delimiter (fuel1 + 1) reader [] store
        refs h
    exact ⟨init, last, by simpa using hrefs, hlast, hinit⟩
  · intro value rest hrest hin
    subst hin
    refine ⟨?_, ?_⟩
    · intro hlt
      have := (PutBlock_line_stream blockSize digest (fuel1 + 1) ⟨value, delimiter⟩ rest store
        hd hrest _ _ (hshort hlt)).1
      simpa using this
    · intro heq hpos
      have := (PutBlock_line_stream blockSize digest (fuel1 + 1) ⟨value, delimiter⟩ rest store
        hd hrest _ _ (hexact heq hpos)).1
      simpa using this

/-- C6 at concrete inputs: the ten bytes `abcdefghi\n` give one block reference
`[0, 10)` with `blockSize = 1000`, and two with `blockSize = 10`; `PutBlock` on the
one message that carries them replies with the one block reference. -/
theorem PutBlock_threshold_witness :
    (putBlockLoop ByteReader 1000 (fun _ => "h") 11 Delimiter.LINE 11
        [97, 98, 99, 100, 101, 102, 103, 104, 105, 10] [] []).1
      = .ok [⟨⟨"h"⟩, ⟨0, 10⟩⟩] ∧
    (putBlockLoop ByteReader 10 (fun _ => "h") 11 Delimiter.LINE 11
        [97, 98, 99, 100, 101, 102, 103, 104, 105, 10] [] []).1
      = .ok [⟨⟨"h"⟩, ⟨0, 10⟩⟩, ⟨⟨"h"⟩, ⟨0, 0⟩⟩] ∧
    (PutBlock 1000 (fun _ => "h") 11
        [⟨[97, 98, 99, 100, 101, 102, 103, 104, 105, 10], Delimiter.LINE⟩] []).1
      = .ok [⟨⟨"h"⟩, ⟨0, 10⟩⟩] :=
  ⟨(PutBlock_threshold 1000 (fun _ => "h") 11 Delimiter.LINE
      [97, 98, 99, 100, 101, 102, 103, 104, 105, 10] [] (by decide) (by decide)).1 (by decide),
   ((PutBlock_threshold 10 (fun _ => "h") 11 Delimiter.LINE
      [97, 98, 99, 100, 101, 102, 103, 104, 105, 10] [] (by decide) (by decide)).2.1
        (by decide)).2.2 (by decide),
   ((PutBlock_threshold 1000 (fun _ => "h") 11 Delimiter.LINE
      [97, 98, 99, 100, 101, 102, 103, 104, 105, 10] [] (by decide) (by decide)).2.2.2
        [97, 98, 99, 100, 101, 102, 103, 104, 105, 10] [] (by simp) (by rfl)).1 (by decide)⟩

theorem BlockStore.nodup_WriteFile (store : BlockStore) (h : String) (d : List Byte)
    (hnd : (store.map Prod.fst).Nodup) (hn : store.get h = none) :
    ((store.WriteFile h d).map Prod.fst).Nodup := by
  rw [BlockStore.WriteFile_of_get_none store h d hn]
  simp only [List.map_append, List.map_cons, List.map_nil]
  rw [List.nodup_append]
  refine ⟨hnd, by simp, ?_⟩
  intro a ha hb
  simp only [List.mem_singleton] at hb
  subst hb
  obtain ⟨e, he, rfl⟩ := List.mem_map.1 ha
  exact BlockStore.get_none_not_mem store _ hn e he rfl

/-- C8 (dedup idempotence): `putOneBlock` keeps the bytes stored under every hash
that is present; putting the same content a second time leaves the store as the
first put left it, with every other hash untouched and (in a store without
duplicate names) exactly one entry for the hash; and `GetBlock` over the full
range then returns the bytes of the first put (or the bytes that were stored
under the hash before it). -/
theorem putOneBlock_dedup {ρ : Type} (R : Reader ρ) (blockSize : Nat)
    (digest : List Byte → String) (fuel : Nat) (delimiter : Delimiter) (reader : ρ)
    (store : BlockStore) :
    (∀ h b, store.get h = some b →
      (putOneBlock R blockSize digest fuel delimiter reader store).2.get h = some b) ∧
    ∀ (blockRef : BlockRef) (data : List Byte) (reader1 : ρ),
      readBlock R blockSize digest fuel delimiter reader = .ok ((blockRef, data), reader1) →
      (putOneBlock R blockSize digest fuel delimiter reader
          (putOneBlock R blockSize digest fuel delimiter reader store).2).2
        = (putOneBlock R blockSize digest fuel delimiter reader store).2 ∧
      (putOneBlock R blockSize digest fuel delimiter reader
          (putOneBlock R blockSize digest fuel delimiter reader store).2).1
        = .ok (blockRef, reader1) ∧
      ((store.map Prod.fst).Nodup →
        ((putOneBlock R blockSize digest fuel delimiter reader store).2.filter
          (fun e => e.1 = blockRef.Block.Hash)).length = 1) ∧
      (∀ h, h ≠ blockRef.Block.Hash →
        (putOneBlock R blockSize digest fuel delimiter reader store).2.get h = store.get h) ∧
      (store.get blockRef.Block.Hash = none →
        GetBlock (putOneBlock R blockSize digest fuel delimiter reader
            (putOneBlock R blockSize digest fuel delimiter reader store).2).2
          blockRef.Block 0 blockRef.Range.Upper = .ok data) ∧
      (∀ b, store.get blockRef.Block.Hash = some b →
        GetBlock (putOneBlock R blockSize digest fuel delimiter reader
            (putOneBlock R blockSize digest fuel delimiter reader store).2).2
          blockRef.Block 0 b.length = .ok b) := by
  constructor
  · intro h b hb
    unfold putOneBlock
    cases hread : readBlock R blockSize digest fuel delimiter reader with
    | error e => exact hb
    | ok v =>
      obtain ⟨⟨blockRef, data⟩, reader1⟩ := v
      by_cases hg : store.get blockRef.Block.Hash = none
      · simp only [hg, if_true]
        by_cases hh : h = blockRef.Block.Hash
        · subst hh; rw [hg] at hb; simp at hb
        · rw [BlockStore.get_WriteFile_other _ _ _ _ hh]; exact hb
      · simp only [hg, if_false]
        exact hb
  · intro blockRef data reader1 hread
    have hup := (readBlock_content_addressed_aux R blockSize digest fuel delimiter reader reader1
      blockRef data hread)
    cases hg : store.get blockRef.Block.Hash with
    | none =>
      have h1 : putOneBlock R blockSize digest fuel delimiter reader store
          = (.ok (blockRef, reader1), store.WriteFile blockRef.Block.Hash data) := by
        simp [putOneBlock, hread, hg]
      have hsame := BlockStore.get_WriteFile_same store blockRef.Block.Hash data
      have h2 : putOneBlock R blockSize digest fuel delimiter reader
          (store.WriteFile blockRef.Block.Hash data)
          = (.ok (blockRef, reader1), store.WriteFile blockRef.Block.Hash data) := by
        simp [putOneBlock, hread, hsame]
      rw [h1]
      simp only
      rw [h2]
      refine ⟨rfl, rfl, ?_, ?_, ?_, ?_⟩
      · intro hnd
        exact BlockStore.one_entry _ _ data
          (BlockStore.nodup_WriteFile store _ data hnd hg) hsame
      · intro h hh
        exact BlockStore.get_WriteFile_other _ _ _ _ hh
      · intro _
        simp [GetBlock, hsame, hup]
      · intro b hb
        simp at hb
    | some b0 =>
      have h1 : putOneBlock R blockSize digest fuel delimiter reader store
          = (.ok (blockRef, reader1), store) := by
        simp [putOneBlock, hread, hg]
      rw [h1]
      simp only
      rw [h1]
      refine ⟨rfl, rfl, ?_, ?_, ?_, ?_⟩
      · intro hnd
        exact BlockStore.one_entry _ _ b0 hnd hg
      · simp
      · simp
      · simp [GetBlock, hg]

/-- C8 at a concrete input: the chunk `a\nb` put twice into a store that holds
another block. -/
theorem putOneBlock_dedup_witness :
    (putOneBlock ByteReader 5 (fun _ => "h") 10 Delimiter.LINE [97, 10, 98]
        (putOneBlock ByteReader 5 (fun _ => "h") 10 Delimiter.LINE [97, 10, 98]
          [("k", [1])]).2).2
      = (putOneBlock ByteReader 5 (fun _ => "h") 10 Delimiter.LINE [97, 10, 98] [("k", [1])]).2 ∧
    ((putOneBlock ByteReader 5 (fun _ => "h") 10 Delimiter.LINE [97, 10, 98]
        [("k", [1])]).2.filter (fun e => e.1 = "h")).length = 1 ∧
    GetBlock (putOneBlock ByteReader 5 (fun _ => "h") 10 Delimiter.LINE [97, 10, 98]
        (putOneBlock ByteReader 5 (fun _ => "h") 10 Delimiter.LINE [97, 10, 98]
          [("k", [1])]).2).2 ⟨"h"⟩ 0 3 = .ok [97, 10, 98] :=
  ⟨((putOneBlock_dedup ByteReader 5 (fun _ => "h") 10 Delimiter.LINE [97, 10, 98]
      [("k", [1])]).2 ⟨⟨"h"⟩, ⟨0, 3⟩⟩ [97, 10, 98] [] (by rfl)).1,
   ((putOneBlock_dedup ByteReader 5 (fun _ => "h") 10 Delimiter.LINE [97, 10, 98]
      [("k", [1])]).2 ⟨⟨"h"⟩, ⟨0, 3⟩⟩ [97, 10, 98] [] (by rfl)).2.2.1 (by simp),
   ((putOneBlock_dedup ByteReader 5 (fun _ => "h") 10 Delimiter.LINE [97, 10, 98]
      [("k", [1])]).2 ⟨⟨"h"⟩, ⟨0, 3⟩⟩ [97, 10, 98] [] (by rfl)).2.2.2.2.1 (by decide)⟩

/-! ## The stream adapter and empty messages -/

/-- On a stream whose coming messages all carry data, the reads of the adapter
deliver every byte before the first `io.EOF`. -/
theorem readUntilErr_steady (k : Nat) (hk : 0 < k) :
    ∀ (fuel : Nat) (r : putBlockReader), (∀ m ∈ r.server, m.Value ≠ []) → r.size < fuel →
      readUntilErr k fuel r = (r.flat, some Err.EOF) := by
  intro fuel
  induction fuel with
  | zero => intro r _ h; omega
  | succ fuel ih =>
    intro r hgood hfuel
    unfold readUntilErr
    rcases putBlockReader.Read_spec r k hk hgood with
      ⟨hflat, hread⟩ | ⟨data, r1, hread, _, _, hcat, hgood1, hsize⟩
    · rw [hread, hflat]
    · rw [hread]
      simp only
      rw [ih r1 hgood1 (by omega), ← hcat]

/-- C10 (stream adapter faithfulness) fails on the code: of the messages `a`,
(empty), `b` the reads deliver only `a` before they report end-of-input, and
`PutBlock` replies with the single block `[0, 1)`; the byte `b` is dropped. -/
theorem putBlockReader_Read_empty_message :
    readUntilErr 4096 10 ⟨[⟨[], Delimiter.LINE⟩, ⟨[98], Delimiter.LINE⟩], [97]⟩
      = ([97], some Err.EOF) ∧
    (⟨[⟨[], Delimiter.LINE⟩, ⟨[98], Delimiter.LINE⟩], [97]⟩ : putBlockReader).flat = [97, 98] ∧
    readBlocks Bufio 1000 (fun _ => "h") 10 Delimiter.LINE 10
        ⟨⟨[⟨[], Delimiter.LINE⟩, ⟨[98], Delimiter.LINE⟩], [97]⟩, [], none⟩
      = .ok ([(⟨⟨"h"⟩, ⟨0, 1⟩⟩, [97])], ⟨⟨[⟨[98], Delimiter.LINE⟩], []⟩, [], none⟩) ∧
    (PutBlock 1000 (fun _ => "h") 10
        [⟨[97], Delimiter.LINE⟩, ⟨[], Delimiter.LINE⟩, ⟨[98], Delimiter.LINE⟩] []).1
      = .ok [⟨⟨"h"⟩, ⟨0, 1⟩⟩] := by
  refine ⟨by rfl, by rfl, by rfl, by rfl⟩

/-! ## Empty input -/

/-- C3 (empty input) fails on the code: a put of zero bytes sent as one message
with an empty value gets a reply with one block reference `[0, 0)`, and the empty
block is written to the store; the guard for empty puts (lines 54-61, "we don't
create any actual blockRefs") covers only the stream without any message. -/
theorem PutBlock_empty_value_block :
    PutBlock 1000 (fun _ => "h") 10 [⟨[], Delimiter.LINE⟩] []
      = (.ok [⟨⟨"h"⟩, ⟨0, 0⟩⟩], [("h", [])]) ∧
    (PutBlock 1000 (fun _ => "h") 10 [⟨[], Delimiter.LINE⟩] []).1 ≠ .ok [] ∧
    (PutBlock 1000 (fun _ => "h") 10 [⟨[], Delimiter.LINE⟩] []).2 ≠ [] := by
  have h : PutBlock 1000 (fun _ => "h") 10 [⟨[], Delimiter.LINE⟩] []
      = (.ok [⟨⟨"h"⟩, ⟨0, 0⟩⟩], [("h", [])]) := by rfl
  rw [h]
  simp

/-- Once a message has arrived the reply of `PutBlock` is never the empty list. -/
theorem PutBlock_reply_ne_nil (blockSize : Nat) (digest : List Byte → String) (fuel : Nat)
    (store : BlockStore) (server : PutBlockServer) (hne : server ≠ []) :
    (PutBlock blockSize digest fuel server store).1 ≠ .ok [] := by
  intro h
  cases server with
  | nil => exact hne rfl
  | cons m rest =>
    simp only [PutBlock, Recv] at h
    obtain ⟨init, last, hrefs, _, _⟩ :=
      putBlockLoop_shape Bufio blockSize digest fuel m.Delimiter fuel _ [] store [] h
    simp at hrefs

/-- The guard of lines 54-61: on a stream with no message at all before
end-of-input `PutBlock` succeeds, replies with an empty list of block references
and leaves the block store as it was. -/
theorem PutBlock_empty_stream (blockSize : Nat) (digest : List Byte → String) (fuel : Nat)
    (store : BlockStore) :
    (PutBlock blockSize digest fuel [] store).1 = .ok [] ∧
    (PutBlock blockSize digest fuel [] store).2 = store := by
  unfold PutBlock
  simp [Recv]

/-! ## The record-delimited policy drops the bytes its decoder has buffered -/

/-- C5 (record-delimited reconstruction) fails on the code: of the records
`[1,2,3][4]` in one message, with `blockSize = 5`, the chunks are `[1,2,3]` and
the empty chunk; the record `[4]`, read ahead by the decoder of the first
`readBlock`, is in no chunk.  (With a `MarshalJSON` that writes `null` for the
nil message the second chunk is `null`; the record `[4]` is lost all the same.) -/
theorem readBlockJSONDelimited_drops_read_ahead :
    readBlocks Bufio 5 (fun _ => "h") 20 Delimiter.JSON 20
        ⟨⟨[], [91, 49, 44, 50, 44, 51, 93, 91, 52, 93]⟩, [], none⟩
      = .ok ([(⟨⟨"h"⟩, ⟨0, 7⟩⟩, [91, 49, 44, 50, 44, 51, 93]), (⟨⟨"h"⟩, ⟨0, 0⟩⟩, [])],
          ⟨⟨[], []⟩, [], none⟩) ∧
    (PutBlock 5 (fun _ => "h") 20
        [⟨[91, 49, 44, 50, 44, 51, 93, 91, 52, 93], Delimiter.JSON⟩] []).1
      = .ok [⟨⟨"h"⟩, ⟨0, 7⟩⟩, ⟨⟨"h"⟩, ⟨0, 0⟩⟩] ∧
    [91, 49, 44, 50, 44, 51, 93] ++ ([] : List Byte) ≠ [91, 49, 44, 50, 44, 51, 93, 91, 52, 93] := by
  refine ⟨by rfl, by rfl, by decide⟩

/-! ## `strings.Split` and `strings.Join` -/

theorem Split_ne_nil (s : Str) : Split s ≠ [] := by
  cases s with
  | nil => simp [Split]
  | cons c cs =>
    unfold Split
    by_cases hc : c = '/'
    · simp [hc]
    · simp only [hc, if_false]
      cases Split cs <;> simp

theorem Split_of_not_mem {s : Str} (h : '/' ∉ s) : Split s = [s] := by
  induction s with
  | nil => rfl
  | cons c cs ih =>
    simp only [List.mem_cons, not_or] at h
    have hc : ¬ c = '/' := fun h1 => h.1 h1.symm
    unfold Split
    simp [hc, ih h.2]

theorem Split_append_slash (a b : Str) : Split (a ++ '/' :: b) = Split a ++ Split b := by
  induction a with
  | nil => simp [Split]
  | cons c a ih =>
    by_cases hc : c = '/'
    · simp [Split, hc, ih]
    · have h1 : Split (c :: a ++ '/' :: b) =
          match Split (a ++ '/' :: b) with
          | [] => [[c]]
          | seg :: rest => (c :: seg) :: rest := by
        simp [Split, hc]
      have h2 : Split (c :: a) =
          match Split a with
          | [] => [[c]]
          | seg :: rest => (c :: seg) :: rest := by
        simp [Split, hc]
      rw [h1, h2, ih]
      cases hs : Split a with
      | nil => exact absurd hs (Split_ne_nil a)
      | cons seg rest => simp

theorem Split_mem_no_slash : ∀ (s : Str) (seg : Str), seg ∈ Split s → '/' ∉ seg := by
  intro s
  induction s with
  | nil => intro seg h; simp [Split] at h; simp [h]
  | cons c cs ih =>
    intro seg h
    unfold Split at h
    by_cases hc : c = '/'
    · simp only [hc, if_true, List.mem_cons] at h
      rcases h with rfl | h
      · simp
      · exact ih seg h
    · simp only [hc, if_false] at h
      cases hs : Split cs with
      | nil => exact absurd hs (Split_ne_nil cs)
      | cons seg1 rest =>
        rw [hs] at h
        simp only [List.mem_cons] at h
        rcases h with rfl | h
        · have := ih seg1 (by rw [hs]; simp)
          simp only [List.mem_cons, not_or]
          exact ⟨fun h1 => hc h1.symm, this⟩
        · exact ih seg (by rw [hs]; simp [h])

theorem Split_JoinSep : ∀ (ss : List Str), ss ≠ [] → (∀ s ∈ ss, '/' ∉ s) →
    Split (JoinSep ss) = ss := by
  intro ss
  induction ss with
  | nil => intro h; exact absurd rfl h
  | cons a rest ih =>
    intro _ hall
    cases rest with
    | nil => simpa [JoinSep] using Split_of_not_mem (hall a (by simp))
    | cons b rest =>
      have h1 : JoinSep (a :: b :: rest) = a ++ '/' :: JoinSep (b :: rest) := rfl
      rw [h1, Split_append_slash, Split_of_not_mem (hall a (by simp)),
        ih (by simp) (fun s hs => hall s (List.mem_cons_of_mem _ hs))]
      rfl

theorem JoinSep_append : ∀ (xs ys : List Str), xs ≠ [] → ys ≠ [] →
    JoinSep (xs ++ ys) = JoinSep xs ++ '/' :: JoinSep ys := by
  intro xs
  induction xs with
  | nil => intro _ h; exact absurd rfl h
  | cons a rest ih =>
    intro ys _ hys
    cases rest with
    | nil =>
      cases ys with
      | nil => exact absurd rfl hys
      | cons y ys => rfl
    | cons b rest =>
      have h1 : JoinSep (a :: b :: rest ++ ys) = a ++ '/' :: JoinSep (b :: rest ++ ys) := rfl
      have h2 : JoinSep (a :: b :: rest) = a ++ '/' :: JoinSep (b :: rest) := rfl
      rw [h1, h2, ih ys (by simp) hys]
      simp

/-! ## `strconv.FormatUint` and `strconv.ParseUint` -/

theorem digitChar_spec : ∀ d, d < 10 →
    ('0' ≤ digitChar d ∧ digitChar d ≤ '9') ∧ (digitChar d).toNat - 48 = d ∧
      digitChar d ≠ '/' ∧ digitChar d ≠ '.' := by
  decide

theorem formatBits_spec : ∀ (fuel u : Nat) (acc : Str), 0 < fuel →
    ∃ ds, formatBits fuel u acc = ds ++ acc ∧ ds ≠ [] ∧
      ∀ c ∈ ds, c ≠ '/' ∧ c ≠ '.' := by
  intro fuel
  induction fuel with
  | zero => intro _ _ h; omega
  | succ fuel ih =>
    intro u acc _
    unfold formatBits
    by_cases hu : u ≥ 10
    · simp only [hu, if_true]
      have hd := digitChar_spec (u % 10) (Nat.mod_lt _ (by decide))
      cases fuel with
      | zero =>
        exact ⟨[digitChar (u % 10)], by simp [formatBits], by simp, by
          intro c hc; simp at hc; subst hc; exact hd.2.2⟩
      | succ fuel =>
        obtain ⟨ds, hds, _, hall⟩ := ih (u / 10) (digitChar (u % 10) :: acc) (by omega)
        refine ⟨ds ++ [digitChar (u % 10)], by simp [hds], by simp, ?_⟩
        intro c hc
        rcases List.mem_append.1 hc with hc | hc
        · exact hall c hc
        · simp at hc; subst hc; exact hd.2.2
    · simp only [hu, if_false]
      have hd := digitChar_spec u (by omega)
      exact ⟨[digitChar u], by simp, by simp, by
        intro c hc; simp at hc; subst hc; exact hd.2.2⟩

theorem parseUintLoop_cons (c : Char) (cs : Str) (n : Nat) :
    parseUintLoop (c :: cs) n =
      if '0' ≤ c ∧ c ≤ '9' then
        if n ≥ (2 ^ 64 - 1) / 10 + 1 then none
        else if n * 10 + (c.toNat - 48) > 2 ^ 64 - 1 then none
        else parseUintLoop cs (n * 10 + (c.toNat - 48))
      else none := by
  rw [parseUintLoop]

theorem parseUintLoop_formatBits : ∀ (fuel u : Nat) (acc : Str), u < 10 ^ fuel → u < 2 ^ 64 →
    parseUintLoop (formatBits fuel u acc) 0 = parseUintLoop acc u := by
  intro fuel
  induction fuel with
  | zero =>
    intro u acc h _
    have : u = 0 := by simpa using h
    subst this
    rfl
  | succ fuel ih =>
    intro u acc hpow h64
    unfold formatBits
    by_cases hu : u ≥ 10
    · simp only [hu, if_true]
      have hd := digitChar_spec (u % 10) (Nat.mod_lt _ (by decide))
      have hdiv : u / 10 < 10 ^ fuel := by
        rw [Nat.div_lt_iff_lt_mul (by decide)]
        rw [pow_succ] at hpow
        exact hpow
      rw [ih (u / 10) _ hdiv (by omega), parseUintLoop_cons, if_pos hd.1, hd.2.1]
      have h1 : ¬ u / 10 ≥ (2 ^ 64 - 1) / 10 + 1 := by omega
      have h3 : u / 10 * 10 + u % 10 = u := by omega
      have h2 : ¬ u > 2 ^ 64 - 1 := by omega
      rw [if_neg h1, h3, if_neg h2]
    · simp only [hu, if_false]
      have hd := digitChar_spec u (by omega)
      rw [parseUintLoop_cons, if_pos hd.1, hd.2.1]
      have h1 : ¬ 0 ≥ (2 ^ 64 - 1) / 10 + 1 := by omega
      have h3 : 0 * 10 + u = u := by omega
      have h2 : ¬ u > 2 ^ 64 - 1 := by omega
      rw [if_neg h1, h3, if_neg h2]

/-- Parsing the decimal form of a `uint64` gives the number back. -/
theorem ParseUint_FormatUint (u : Nat) (h : u < 2 ^ 64) : ParseUint (FormatUint u) = some u := by
  unfold ParseUint FormatUint
  obtain ⟨ds, hds, hne, _⟩ := formatBits_spec 20 u [] (by decide)
  have hne1 : formatBits 20 u [] ≠ [] := by rw [hds]; simpa using hne
  rw [if_neg hne1, parseUintLoop_formatBits 20 u [] (by omega) h]
  rfl

theorem plain_FormatUint (u : Nat) : plain (FormatUint u) := by
  obtain ⟨ds, hds, hne, hall⟩ := formatBits_spec 20 u [] (by decide)
  have heq : FormatUint u = ds := by unfold FormatUint; rw [hds]; simp
  rw [heq]
  refine ⟨hne, fun h => (hall _ h).1 rfl, ?_, ?_⟩
  · intro h; rw [h] at hall; exact (hall '.' (by simp)).2 rfl
  · intro h; rw [h] at hall; exact (hall '.' (by simp)).2 rfl

/-! ## `filepath.Clean` on clean paths -/

theorem cleanStep_plain (rooted : Bool) (out : List Str) (seg : Str) (h : plain seg) :
    cleanStep rooted out seg = seg :: out := by
  obtain ⟨h1, _, h3, h4⟩ := h
  simp [cleanStep, h1, h3, h4]

theorem cleanStep_nil (rooted : Bool) (out : List Str) : cleanStep rooted out [] = out := by
  simp [cleanStep]

theorem foldl_cleanStep_soft (rooted : Bool) : ∀ (segs : List Str) (out : List Str),
    (∀ s ∈ segs, s = [] ∨ plain s) →
    segs.foldl (cleanStep rooted) out = (segs.filter (fun s => s ≠ [])).reverse ++ out := by
  intro segs
  induction segs with
  | nil => intro out _; rfl
  | cons a segs ih =>
    intro out h
    have hrest : ∀ s ∈ segs, s = [] ∨ plain s := fun s hs => h s (List.mem_cons_of_mem _ hs)
    rcases h a (List.mem_cons_self _ _) with rfl | ha
    · simp [cleanStep_nil, ih out hrest]
    · have hne : a ≠ [] := ha.1
      simp [cleanStep_plain rooted out a ha, ih _ hrest, hne]

theorem Normal_nil (rooted : Bool) : Normal rooted [] := ⟨0, [], rfl, fun _ => rfl, by simp⟩

theorem Normal_cons_plain {rooted : Bool} {out : List Str} {seg : Str} (h : Normal rooted out)
    (hs : plain seg) : Normal rooted (seg :: out) := by
  obtain ⟨k, reals, rfl, hk, hr⟩ := h
  refine ⟨k, seg :: reals, rfl, hk, ?_⟩
  intro s hmem
  rcases List.mem_cons.1 hmem with rfl | hmem
  · exact hs
  · exact hr s hmem

theorem Normal_cleanStep {rooted : Bool} {out : List Str} {seg : Str} (h : Normal rooted out)
    (hs : '/' ∉ seg) : Normal rooted (cleanStep rooted out seg) := by
  by_cases h1 : seg = []
  · simpa [cleanStep, h1] using h
  by_cases h2 : seg = ['.']
  · simpa [cleanStep, h2] using h
  by_cases h3 : seg = ['.', '.']
  · subst h3
    obtain ⟨k, reals, rfl, hk, hr⟩ := h
    cases reals with
    | nil =>
      cases k with
      | zero =>
        cases rooted with
        | true => simpa [cleanStep] using Normal_nil true
        | false => exact ⟨1, [], by simp [cleanStep, List.replicate], by simp, by simp⟩
      | succ k =>
        cases rooted with
        | true => simp at hk
        | false =>
          refine ⟨k + 2, [], ?_, by simp, by simp⟩
          simp [cleanStep, List.replicate]
    | cons r reals =>
      have hr1 : plain r := hr r (List.mem_cons_self _ _)
      refine ⟨k, reals, ?_, hk, fun s hmem => hr s (List.mem_cons_of_mem _ hmem)⟩
      simp [cleanStep, hr1.2.2.2]
  · have hp : plain seg := ⟨h1, hs, h2, h3⟩
    rw [cleanStep_plain rooted out seg hp]
    exact Normal_cons_plain h hp

theorem Normal_foldl {rooted : Bool} : ∀ (segs : List Str) (out : List Str),
    (∀ s ∈ segs, '/' ∉ s) → Normal rooted out → Normal rooted (segs.foldl (cleanStep rooted) out) := by
  intro segs
  induction segs with
  | nil => intro out _ h; exact h
  | cons a segs ih =>
    intro out hs h
    exact ih _ (fun s hmem => hs s (List.mem_cons_of_mem _ hmem))
      (Normal_cleanStep h (hs a (List.mem_cons_self _ _)))

theorem Normal_mem {rooted : Bool} {out : List Str} (h : Normal rooted out) :
    ∀ s ∈ out, s ≠ [] ∧ '/' ∉ s := by
  obtain ⟨k, reals, rfl, _, hr⟩ := h
  intro s hmem
  rcases List.mem_append.1 hmem with hmem | hmem
  · exact ⟨(hr s hmem).1, (hr s hmem).2.1⟩
  · have := List.eq_of_mem_replicate hmem
    subst this
    exact ⟨by simp, by decide⟩

theorem foldl_dotdot : ∀ (k j : Nat),
    (List.replicate k ['.', '.']).foldl (cleanStep false) (List.replicate j ['.', '.'])
      = List.replicate (k + j) ['.', '.'] := by
  intro k
  induction k with
  | zero => intro j; simp
  | succ k ih =>
    intro j
    have hstep : cleanStep false (List.replicate j ['.', '.']) ['.', '.']
        = List.replicate (j + 1) ['.', '.'] := by
      cases j with
      | zero => simp [cleanStep, List.replicate]
      | succ j => simp [cleanStep, List.replicate]
    rw [List.replicate_succ, List.foldl_cons, hstep, ih (j + 1)]
    congr 1
    omega

/-- Cleaning the elements of a clean path gives the same stack again. -/
theorem foldl_cleanStep_normal {rooted : Bool} {out : List Str} (h : Normal rooted out) :
    out.reverse.foldl (cleanStep rooted) [] = out := by
  obtain ⟨k, reals, rfl, hk, hr⟩ := h
  rw [List.reverse_append, List.reverse_replicate, List.foldl_append]
  have h1 : (List.replicate k ['.', '.']).foldl (cleanStep rooted) []
      = List.replicate k ['.', '.'] := by
    cases rooted with
    | true => rw [hk rfl]; rfl
    | false => simpa using foldl_dotdot k 0
  rw [h1, foldl_cleanStep_soft rooted reals.reverse _
    (fun s hs => Or.inr (hr s (List.mem_reverse.1 hs)))]
  have h2 : reals.reverse.filter (fun s => s ≠ []) = reals.reverse := by
    rw [List.filter_eq_self]
    intro s hs
    simpa using (hr s (List.mem_reverse.1 hs)).1
  rw [h2, List.reverse_reverse]

theorem JoinSep_ne_nil : ∀ (stk : List Str), stk ≠ [] → (∀ s ∈ stk, s ≠ []) → JoinSep stk ≠ [] := by
  intro stk hne h
  cases stk with
  | nil => exact absurd rfl hne
  | cons a rest =>
    have ha : a ≠ [] := h a (List.mem_cons_self _ _)
    cases rest with
    | nil => simpa [JoinSep] using ha
    | cons b rest =>
      have h1 : JoinSep (a :: b :: rest) = a ++ '/' :: JoinSep (b :: rest) := rfl
      rw [h1]
      simp

theorem JoinSep_head_ne_slash : ∀ (stk : List Str), stk ≠ [] →
    (∀ s ∈ stk, s ≠ [] ∧ '/' ∉ s) → (JoinSep stk).head? ≠ some '/' := by
  intro stk hne h
  cases stk with
  | nil => exact absurd rfl hne
  | cons a rest =>
    obtain ⟨ha, hs⟩ := h a (List.mem_cons_self _ _)
    cases a with
    | nil => exact absurd rfl ha
    | cons c cs =>
      have hc : c ≠ '/' := by
        intro hc; apply hs; simp [hc]
      cases rest with
      | nil => simpa [JoinSep] using hc
      | cons b rest =>
        have h1 : JoinSep ((c :: cs) :: b :: rest) = (c :: cs) ++ '/' :: JoinSep (b :: rest) := rfl
        rw [h1]
        simpa using hc

/-- A clean path: what `render` writes for a non-empty normal stack. -/
theorem render_facts {rooted : Bool} {out : List Str} (h : Normal rooted out) (hne : out ≠ []) :
    render rooted out.reverse ≠ [] ∧
    decide ((render rooted out.reverse).head? = some '/') = rooted ∧
    (Split (render rooted out.reverse)).foldl (cleanStep rooted) [] = out := by
  have hmem : ∀ s ∈ out.reverse, s ≠ [] ∧ '/' ∉ s :=
    fun s hs => Normal_mem h s (List.mem_reverse.1 hs)
  have hne1 : out.reverse ≠ [] := by simpa using hne
  have hsplit : Split (JoinSep out.reverse) = out.reverse :=
    Split_JoinSep _ hne1 (fun s hs => (hmem s hs).2)
  cases rooted with
  | true =>
    refine ⟨by simp [render], by simp [render], ?_⟩
    have : Split (render true out.reverse) = [] :: out.reverse := by
      simp [render, Split, hsplit]
    rw [this, List.foldl_cons, cleanStep_nil]
    exact foldl_cleanStep_normal h
  | false =>
    refine ⟨?_, ?_, ?_⟩
    · simpa [render] using JoinSep_ne_nil _ hne1 (fun s hs => (hmem s hs).1)
    · simpa [render] using JoinSep_head_ne_slash _ hne1 hmem
    · simp only [render, Bool.false_eq_true, if_false]
      rw [hsplit]
      exact foldl_cleanStep_normal h

/-- `filepath.Clean` in terms of the stack it builds. -/
theorem Clean_eq_render (path : Str) (rooted : Bool) (out : List Str) (hp : path ≠ [])
    (hr : decide (path.head? = some '/') = rooted)
    (ho : (Split path).foldl (cleanStep rooted) [] = out) (hne : out ≠ [])
    (hmem : ∀ s ∈ out, s ≠ []) : Clean path = render rooted out.reverse := by
  unfold Clean
  rw [if_neg hp]
  simp only [hr, ho]
  have hb : JoinSep out.reverse ≠ [] :=
    JoinSep_ne_nil _ (by simpa using hne) (fun s hs => hmem s (List.mem_reverse.1 hs))
  cases rooted with
  | true => simp [render]
  | false => simp [render, hb]

theorem Clean_render_below {rooted : Bool} {out : List Str} (h : Normal rooted out)
    (hne : out ≠ []) (X : Str) (hX : ∀ seg ∈ Split X, seg = [] ∨ plain seg) :
    Clean (render rooted out.reverse ++ '/' :: X)
      = render rooted (out.reverse ++ (Split X).filter (fun s => s ≠ [])) := by
  obtain ⟨hD, hroot, hfold⟩ := render_facts h hne
  have hcl := Clean_eq_render (render rooted out.reverse ++ '/' :: X) rooted
    (((Split X).filter (fun s => s ≠ [])).reverse ++ out) (by simp)
    (by rw [List.head?_append_of_ne_nil _ hD]; exact hroot)
    (by rw [Split_append_slash, List.foldl_append, hfold, foldl_cleanStep_soft rooted _ _ hX])
    (by simp [hne])
    (by
      intro s hs
      rcases List.mem_append.1 hs with hs | hs
      · have := (List.mem_filter.1 (List.mem_reverse.1 hs)).2
        simpa using this
      · exact (Normal_mem h s hs).1)
  rw [hcl, List.reverse_append, List.reverse_reverse]

theorem Clean_render_self {rooted : Bool} {out : List Str} (h : Normal rooted out)
    (hne : out ≠ []) : Clean (render rooted out.reverse) = render rooted out.reverse := by
  obtain ⟨hD, hroot, hfold⟩ := render_facts h hne
  exact Clean_eq_render _ rooted out hD hroot hfold hne (fun s hs => (Normal_mem h s hs).1)

theorem render_append {rooted : Bool} (stk ss : List Str) (h1 : stk ≠ []) (h2 : ss ≠ []) :
    render rooted (stk ++ ss) = below (render rooted stk) ss := by
  cases rooted <;> simp [render, below, JoinSep_append stk ss h1 h2]

/-- The diff directory is a clean path. -/
theorem diffDir_shape (dir : Str) :
    ∃ rooted out, Normal rooted out ∧ out ≠ [] ∧ diffDir dir = render rooted out.reverse := by
  have hplain : plain ['d', 'i', 'f', 'f'] := by decide
  by_cases hd : dir = []
  · subst hd
    exact ⟨false, [['d', 'i', 'f', 'f']], Normal_cons_plain (Normal_nil false) hplain, by simp,
      by rfl⟩
  · have hN : Normal (decide (dir.head? = some '/')) ((Split dir).foldl
        (cleanStep (decide (dir.head? = some '/'))) []) :=
      Normal_foldl _ _ (Split_mem_no_slash dir) (Normal_nil _)
    refine ⟨decide (dir.head? = some '/'), _, Normal_cons_plain hN hplain, by simp, ?_⟩
    have hj : diffDir dir = Clean (dir ++ '/' :: ['d', 'i', 'f', 'f']) := by
      simp [diffDir, Join, hd, JoinSep]
    rw [hj]
    refine Clean_eq_render _ _ _ (by simp) ?_ ?_ (by simp) ?_
    · rw [List.head?_append_of_ne_nil _ hd]
    · rw [Split_append_slash, List.foldl_append,
        Split_of_not_mem (s := ['d', 'i', 'f', 'f']) (by decide)]
      simp [cleanStep_plain _ _ _ hplain]
    · intro s hs
      exact (Normal_mem (Normal_cons_plain hN hplain) s hs).1

theorem diffDir_ne_nil (dir : Str) : diffDir dir ≠ [] := by
  obtain ⟨rooted, out, hN, hne, heq⟩ := diffDir_shape dir
  rw [heq]
  exact (render_facts hN hne).1

/-- Cleaning a path below the diff directory whose elements are plain (or empty)
keeps the plain elements. -/
theorem Clean_diffDir_below (dir : Str) (X : Str)
    (hX : ∀ seg ∈ Split X, seg = [] ∨ plain seg) :
    Clean (diffDir dir ++ '/' :: X) =
      if (Split X).filter (fun s => s ≠ []) = [] then diffDir dir
      else below (diffDir dir) ((Split X).filter (fun s => s ≠ [])) := by
  obtain ⟨rooted, out, hN, hne, heq⟩ := diffDir_shape dir
  rw [heq, Clean_render_below hN hne X hX]
  by_cases hf : (Split X).filter (fun s => s ≠ []) = []
  · rw [if_pos hf, hf, List.append_nil]
  · rw [if_neg hf, render_append _ _ (by simpa using hne) hf]

theorem Clean_below (dir : Str) (ss : List Str) (hne : ss ≠ []) (hss : ∀ s ∈ ss, plain s) :
    Clean (below (diffDir dir) ss) = below (diffDir dir) ss := by
  have hsplit : Split (JoinSep ss) = ss := Split_JoinSep ss hne (fun s hs => (hss s hs).2.1)
  have hfil : ss.filter (fun s => s ≠ []) = ss := by
    rw [List.filter_eq_self]
    intro s hs
    simpa using (hss s hs).1
  have := Clean_diffDir_below dir (JoinSep ss)
    (by rw [hsplit]; exact fun s hs => Or.inr (hss s hs))
  rw [hsplit, hfil, if_neg hne] at this
  exact this

theorem cut_last (P c : Str) (hc : '/' ∉ c) :
    ((P ++ '/' :: c).reverse.dropWhile (fun x => x ≠ '/')).reverse = P ++ ['/'] := by
  have h1 : (P ++ '/' :: c).reverse = c.reverse ++ '/' :: P.reverse := by simp
  rw [h1, List.dropWhile_append_of_pos]
  · simp
  · intro x hx
    have hx1 : x ∈ c := List.mem_reverse.1 hx
    have : x ≠ '/' := fun h => hc (h ▸ hx1)
    simpa using this

/-- The parent of a path of plain elements below the diff directory. -/
theorem Dir_below (dir : Str) (ss : List Str) (c : Str) (hss : ∀ s ∈ ss, plain s)
    (hc : plain c) :
    Dir (below (diffDir dir) (ss ++ [c])) =
      if ss = [] then diffDir dir else below (diffDir dir) ss := by
  by_cases hs : ss = []
  · subst hs
    have hpath : below (diffDir dir) ([] ++ [c]) = diffDir dir ++ '/' :: c := by
      simp [below, JoinSep]
    rw [if_pos rfl, hpath]
    unfold Dir
    rw [cut_last _ _ hc.2.1]
    have := Clean_diffDir_below dir [] (by simp [Split])
    simpa [Split] using this
  · have hpath : below (diffDir dir) (ss ++ [c]) = (diffDir dir ++ '/' :: JoinSep ss) ++ '/' :: c := by
      simp [below, JoinSep_append ss [c] hs (by simp), JoinSep]
    rw [if_neg hs, hpath]
    unfold Dir
    rw [cut_last _ _ hc.2.1]
    have hsplit : Split (JoinSep ss ++ '/' :: []) = ss ++ [[]] := by
      rw [Split_append_slash, Split_JoinSep ss hs (fun s h => (hss s h).2.1)]
      rfl
    have hfil : (ss ++ [[]]).filter (fun s => s ≠ []) = ss := by
      have : ss.filter (fun s => s ≠ []) = ss := by
        rw [List.filter_eq_self]
        intro s h
        simpa using (hss s h).1
      have h0 : ([[]] : List Str).filter (fun s => s ≠ []) = [] := by decide
      rw [List.filter_append, this, h0, List.append_nil]
    have := Clean_diffDir_below dir (JoinSep ss ++ '/' :: [])
      (by
        rw [hsplit]
        intro seg hseg
        rcases List.mem_append.1 hseg with h | h
        · exact Or.inr (hss seg h)
        · simp at h; exact Or.inl h)
    rw [hsplit, hfil, if_neg hs] at this
    simpa [below] using this

theorem plain_commitElem (ID : Str) (h : ID = [] ∨ plain ID) : plain (commitElem ID) := by
  unfold commitElem
  by_cases hi : ID = []
  · rw [if_pos hi]; decide
  · rw [if_neg hi]
    rcases h with h | h
    · exact absurd h hi
    · exact h

/-- The path of a path-safe key: three plain elements below the diff directory. -/
theorem diffPath_eq (dir : Str) (diff : Diff) (h : pathSafe diff) :
    diffPath dir diff = below (diffDir dir)
      [diff.Commit.Repo.Name, FormatUint diff.Shard, commitElem diff.Commit.ID] := by
  obtain ⟨hr, hc, _⟩ := h
  have hj : diffPath dir diff = Clean (below (diffDir dir)
      [diff.Commit.Repo.Name, FormatUint diff.Shard, commitElem diff.Commit.ID]) := by
    simp [diffPath, Join, diffDir_ne_nil dir, JoinSep, below, commitElem]
  rw [hj]
  apply Clean_below dir _ (by simp)
  intro s hs
  simp only [List.mem_cons, List.mem_singleton, List.not_mem_nil, or_false] at hs
  rcases hs with rfl | rfl | rfl
  · exact hr
  · exact plain_FormatUint _
  · exact plain_commitElem _ hc

theorem TrimPrefix_below (root : Str) (ss : List Str) :
    TrimPrefix (below root ss) (root ++ ['/']) = JoinSep ss := by
  unfold TrimPrefix below
  have hp : (root ++ ['/']).isPrefixOf (root ++ '/' :: JoinSep ss) = true := by
    rw [List.isPrefixOf_iff_prefix]
    exact ⟨JoinSep ss, by simp⟩
  rw [if_pos hp]
  have : root ++ '/' :: JoinSep ss = (root ++ ['/']) ++ JoinSep ss := by simp
  rw [this, List.drop_left]

/-- Parsing the path of three slash-free elements below the diff directory. -/
theorem pathToDiff_below3 (dir : Str) (r f c : Str) (shard : Nat)
    (hr : '/' ∉ r) (hf : '/' ∉ f) (hc : '/' ∉ c) (hp : ParseUint f = some shard) :
    pathToDiff dir (below (diffDir dir) [r, f, c])
      = some ⟨⟨⟨r⟩, if c = ['_'] then [] else c⟩, shard⟩ := by
  unfold pathToDiff
  rw [TrimPrefix_below, Split_JoinSep [r, f, c] (by simp) (by
    intro s hs
    simp only [List.mem_cons, List.mem_singleton, List.not_mem_nil, or_false] at hs
    rcases hs with rfl | rfl | rfl <;> assumption)]
  simp [hp]

/-- A path of fewer than three elements below the diff directory is no diff. -/
theorem pathToDiff_below_short (dir : Str) (ss : List Str) (hne : ss ≠ [])
    (hss : ∀ s ∈ ss, '/' ∉ s) (hlen : ss.length < 3) :
    pathToDiff dir (below (diffDir dir) ss) = none := by
  unfold pathToDiff
  rw [TrimPrefix_below, Split_JoinSep ss hne hss]
  simp [hlen]

/-! ## Diff key round-trip -/

/-- Decoding the path of a path-safe key: repository and shard come back, the
commit identifier comes back unless it is the placeholder `_`, which decodes to
the empty identifier. -/
theorem pathToDiff_diffPath_safe (dir : Str) (diff : Diff) (h : pathSafe diff) :
    pathToDiff dir (diffPath dir diff)
      = some ⟨⟨diff.Commit.Repo, if diff.Commit.ID = ['_'] then [] else diff.Commit.ID⟩,
          diff.Shard⟩ := by
  have hce := plain_commitElem diff.Commit.ID h.2.1
  rw [diffPath_eq dir diff h, pathToDiff_below3 dir _ _ _ diff.Shard h.1.2.1
    (plain_FormatUint _).2.1 hce.2.1 (ParseUint_FormatUint _ h.2.2)]
  have hdec : (if commitElem diff.Commit.ID = ['_'] then [] else commitElem diff.Commit.ID)
      = if diff.Commit.ID = ['_'] then [] else diff.Commit.ID := by
    unfold commitElem
    by_cases h0 : diff.Commit.ID = []
    · simp [h0]
    · simp [h0]
  rw [hdec]

/-- C2 amended (diff key round-trip): for every server directory and every key
whose repository name is a plain path element (not empty, no slash, not `.` or
`..`), whose commit identifier is empty or a plain path element other than `_`,
and whose shard is a `uint64`, `pathToDiff (diffPath key)` is a non-nil diff
equal to the key. -/
theorem pathToDiff_diffPath (dir : Str) (diff : Diff) (hsafe : pathSafe diff)
    (hid : diff.Commit.ID ≠ ['_']) : pathToDiff dir (diffPath dir diff) = some diff := by
  rw [pathToDiff_diffPath_safe dir diff hsafe, if_neg hid]

/-- C2 amended at concrete keys: repository `r1`, shard 2, with the empty commit
and with the commit `c1`, under the directory `/data`. -/
theorem pathToDiff_diffPath_witness :
    pathToDiff ['/', 'd', 'a', 't', 'a']
        (diffPath ['/', 'd', 'a', 't', 'a'] ⟨⟨⟨['r', '1']⟩, []⟩, 2⟩)
      = some ⟨⟨⟨['r', '1']⟩, []⟩, 2⟩ ∧
    pathToDiff ['/', 'd', 'a', 't', 'a']
        (diffPath ['/', 'd', 'a', 't', 'a'] ⟨⟨⟨['r', '1']⟩, ['c', '1']⟩, 2⟩)
      = some ⟨⟨⟨['r', '1']⟩, ['c', '1']⟩, 2⟩ :=
  ⟨pathToDiff_diffPath ['/', 'd', 'a', 't', 'a'] ⟨⟨⟨['r', '1']⟩, []⟩, 2⟩ (by decide) (by decide),
   pathToDiff_diffPath ['/', 'd', 'a', 't', 'a'] ⟨⟨⟨['r', '1']⟩, ['c', '1']⟩, 2⟩ (by decide)
     (by decide)⟩

/-- C2 as stated fails: the key with commit identifier `_` decodes to the key with
the empty commit identifier, and a key whose repository name contains a slash
decodes to nil. -/
theorem pathToDiff_diffPath_counterexample :
    pathToDiff ['/', 'd', 'a', 't', 'a']
        (diffPath ['/', 'd', 'a', 't', 'a'] ⟨⟨⟨['r', '1']⟩, ['_']⟩, 2⟩)
      = some ⟨⟨⟨['r', '1']⟩, []⟩, 2⟩ ∧
    pathToDiff ['/', 'd', 'a', 't', 'a']
        (diffPath ['/', 'd', 'a', 't', 'a'] ⟨⟨⟨['r', '1']⟩, ['_']⟩, 2⟩)
      ≠ some ⟨⟨⟨['r', '1']⟩, ['_']⟩, 2⟩ ∧
    pathToDiff ['/', 'd', 'a', 't', 'a']
        (diffPath ['/', 'd', 'a', 't', 'a'] ⟨⟨⟨['a', '/', 'b']⟩, ['c']⟩, 2⟩) = none := by
  refine ⟨by decide, by decide, by decide⟩

/-! ## The diff directory under `CreateDiff` -/

theorem below_inj (root : Str) (ss ts : List Str) (hs : ss ≠ []) (ht : ts ≠ [])
    (hss : ∀ s ∈ ss, '/' ∉ s) (hts : ∀ s ∈ ts, '/' ∉ s)
    (h : below root ss = below root ts) : ss = ts := by
  unfold below at h
  have h1 : JoinSep ss = JoinSep ts := by
    have := List.append_cancel_left h
    simpa using this
  rw [← Split_JoinSep ss hs hss, ← Split_JoinSep ts ht hts, h1]

theorem below_isPrefixOf (root : Str) (ss : List Str) :
    (root ++ ['/']).isPrefixOf (below root ss) = true := by
  rw [List.isPrefixOf_iff_prefix]
  exact ⟨JoinSep ss, by simp [below]⟩

theorem below_not_base (root : Str) (ss : List Str) (hroot : root ≠ []) :
    below root ss ≠ ['/'] ∧ below root ss ≠ ['.'] := by
  have hlen : 2 ≤ (below root ss).length := by
    have : 0 < root.length := List.length_pos.2 hroot
    simp only [below, List.length_append, List.length_cons]
    omega
  constructor <;> intro h <;> rw [h] at hlen <;> simp at hlen

theorem FS.isDir_iff (fs : FS) (p : Str) :
    fs.isDir p = true ↔ p = ['/'] ∨ p = ['.'] ∨ p ∈ fs.dirs := by
  simp [FS.isDir, or_assoc]

theorem mem_setFile {files : List (Str × DiffInfo)} {p : Str} {d : DiffInfo}
    {e : Str × DiffInfo} (h : e ∈ setFile files p d) : e = (p, d) ∨ e ∈ files := by
  induction files with
  | nil => simp [setFile] at h; exact Or.inl h
  | cons a rest ih =>
    obtain ⟨k, v⟩ := a
    unfold setFile at h
    by_cases hk : k = p
    · simp only [hk, if_true, List.mem_cons] at h
      rcases h with h | h
      · exact Or.inl h
      · exact Or.inr (List.mem_cons_of_mem _ h)
    · simp only [hk, if_false, List.mem_cons] at h
      rcases h with h | h
      · exact Or.inr (by rw [h]; exact List.mem_cons_self _ _)
      · rcases ih h with h | h
        · exact Or.inl h
        · exact Or.inr (List.mem_cons_of_mem _ h)

theorem setFile_keys (files : List (Str × DiffInfo)) (p : Str) (d : DiffInfo) :
    ∀ k, k ∈ (setFile files p d).map Prod.fst ↔ k = p ∨ k ∈ files.map Prod.fst := by
  induction files with
  | nil => intro k; simp [setFile]
  | cons a rest ih =>
    obtain ⟨k0, v⟩ := a
    intro k
    unfold setFile
    by_cases hk : k0 = p
    · subst hk
      rw [if_pos rfl]
      simp only [List.map_cons, List.mem_cons]
      tauto
    · simp only [hk, if_false, List.map_cons, List.mem_cons, ih k]
      tauto

theorem setFile_nodup (files : List (Str × DiffInfo)) (p : Str) (d : DiffInfo)
    (h : (files.map Prod.fst).Nodup) : ((setFile files p d).map Prod.fst).Nodup := by
  induction files with
  | nil => simp [setFile]
  | cons a rest ih =>
    obtain ⟨k0, v⟩ := a
    simp only [List.map_cons, List.nodup_cons] at h
    unfold setFile
    by_cases hk : k0 = p
    · subst hk
      rw [if_pos rfl]
      simp only [List.map_cons, List.nodup_cons]
      exact h
    · simp only [hk, if_false, List.map_cons, List.nodup_cons]
      refine ⟨?_, ih h.2⟩
      rw [setFile_keys]
      intro hmem
      rcases hmem with hmem | hmem
      · exact hk hmem
      · exact h.1 hmem

theorem setFile_mem_self (files : List (Str × DiffInfo)) (p : Str) (d : DiffInfo) :
    (p, d) ∈ setFile files p d := by
  induction files with
  | nil => simp [setFile]
  | cons a rest ih =>
    obtain ⟨k0, v⟩ := a
    unfold setFile
    by_cases hk : k0 = p
    · simp [hk]
    · simp [hk, ih]

theorem find_of_mem_nodup : ∀ (files : List (Str × DiffInfo)) (p : Str) (d : DiffInfo),
    (files.map Prod.fst).Nodup → (p, d) ∈ files →
    files.find? (fun e => e.1 = p) = some (p, d) := by
  intro files
  induction files with
  | nil => intro p d _ h; simp at h
  | cons a rest ih =>
    intro p d hnd hmem
    obtain ⟨k0, v⟩ := a
    simp only [List.map_cons, List.nodup_cons] at hnd
    rcases List.mem_cons.1 hmem with h | h
    · simp only [Prod.mk.injEq] at h
      obtain ⟨rfl, rfl⟩ := h
      simp
    · have hne : k0 ≠ p := by
        intro hk
        apply hnd.1
        rw [hk]
        exact List.mem_map.2 ⟨(p, d), h, rfl⟩
      rw [List.find?_cons_of_neg _ (by simpa using hne)]
      exact ih p d hnd.2 h

/-- No file of the diff directory sits at a repository or shard directory. -/
theorem FSInv.file_short {dir : Str} {fs : FS} (h : FSInv dir fs) (ss : List Str)
    (hne : ss ≠ []) (hlen : ss.length < 3) (hss : ∀ s ∈ ss, plain s) :
    fs.file (below (diffDir dir) ss) = none := by
  unfold FS.file
  cases hf : fs.files.find? (fun e => e.1 = below (diffDir dir) ss) with
  | none => rfl
  | some e =>
    exfalso
    have hmem := List.mem_of_find?_eq_some hf
    have hkey : e.1 = below (diffDir dir) ss := by
      simpa using List.find?_some hf
    obtain ⟨hsafe, hpath⟩ := h.2.1 e hmem
    rw [diffPath_eq dir _ hsafe] at hpath
    rw [hpath] at hkey
    have := below_inj _ _ _ (by simp) hne (by
      intro s hs
      simp only [List.mem_cons, List.mem_singleton, List.not_mem_nil, or_false] at hs
      rcases hs with rfl | rfl | rfl
      · exact hsafe.1.2.1
      · exact (plain_FormatUint _).2.1
      · exact (plain_commitElem _ hsafe.2.1).2.1) (fun s hs => (hss s hs).2.1) hkey
    rw [← this] at hlen
    simp at hlen

/-- No directory sits at the path of a path-safe key. -/
theorem FSInv.not_isDir_key {dir : Str} {fs : FS} (h : FSInv dir fs) (r f c : Str)
    (hr : plain r) (hf : plain f) (hc : plain c) :
    fs.isDir (below (diffDir dir) [r, f, c]) = false := by
  rw [Bool.eq_false_iff]
  intro hd
  rw [FS.isDir_iff] at hd
  have hb := below_not_base (diffDir dir) [r, f, c] (diffDir_ne_nil dir)
  rcases hd with hd | hd | hd
  · exact hb.1 hd
  · exact hb.2 hd
  · obtain ⟨ss, heq, hne, hlen, hss⟩ := h.2.2.1 _ hd (below_isPrefixOf _ _)
    have := below_inj _ _ _ (by simp) hne (by
      intro s hs
      simp only [List.mem_cons, List.mem_singleton, List.not_mem_nil, or_false] at hs
      rcases hs with rfl | rfl | rfl
      · exact hr.2.1
      · exact hf.2.1
      · exact hc.2.1) (fun s hs => (hss s hs).2.1) heq
    rw [← this] at hlen
    simp at hlen

theorem MkdirAll_succ (fuel : Nat) (fs : FS) (path : Str) :
    MkdirAll (fuel + 1) fs path =
      if fs.isDir path then .ok fs
      else if (fs.file path).isSome then .error Err.NotDir
      else
        match MkdirAll fuel fs (Dir path) with
        | .error e => .error e
        | .ok fs1 => .ok { fs1 with dirs := fs1.dirs ++ [path] } := by
  rw [MkdirAll]

theorem FS.isDir_add (fs : FS) (p q : Str) :
    ({ fs with dirs := fs.dirs ++ [p] } : FS).isDir q = true ↔ fs.isDir q = true ∨ q = p := by
  simp only [FS.isDir_iff, List.mem_append, List.mem_singleton]
  tauto

theorem FSInv.add_dir {dir : Str} {fs : FS} (h : FSInv dir fs) (ss : List Str) (hne : ss ≠ [])
    (hlen : ss.length < 3) (hss : ∀ s ∈ ss, plain s) :
    FSInv dir { fs with dirs := fs.dirs ++ [below (diffDir dir) ss] } := by
  obtain ⟨h1, h2, h3, h4⟩ := h
  refine ⟨(FS.isDir_add fs _ _).2 (Or.inl h1), h2, ?_, h4⟩
  intro p hp hpre
  simp only [List.mem_append, List.mem_singleton] at hp
  rcases hp with hp | hp
  · exact h3 p hp hpre
  · exact ⟨ss, hp, hne, hlen, hss⟩

/-- `MkdirAll` of a shard directory below the diff directory succeeds and adds at
most the repository and the shard directory. -/
theorem MkdirAll_shard_dir (dir : Str) (fs : FS) (r f : Str) (fuel : Nat) (h : FSInv dir fs)
    (hr : plain r) (hf : plain f) (hfuel : 3 ≤ fuel) :
    ∃ fs1, MkdirAll fuel fs (below (diffDir dir) [r, f]) = .ok fs1 ∧ FSInv dir fs1 ∧
      fs1.files = fs.files ∧ fs1.isDir (below (diffDir dir) [r, f]) = true := by
  obtain ⟨n, rfl⟩ : ∃ n, fuel = n + 3 := ⟨fuel - 3, by omega⟩
  have hD1 : Dir (below (diffDir dir) [r, f]) = below (diffDir dir) [r] := by
    have := Dir_below dir [r] f (by simpa using hr) hf
    simpa using this
  have hD0 : Dir (below (diffDir dir) [r]) = diffDir dir := by
    have := Dir_below dir [] r (by simp) hr
    simpa using this
  have hf2 : fs.file (below (diffDir dir) [r, f]) = none :=
    h.file_short [r, f] (by simp) (by simp) (by
      intro s hs
      simp only [List.mem_cons, List.mem_singleton, List.not_mem_nil, or_false] at hs
      rcases hs with rfl | rfl <;> assumption)
  have hf1 : fs.file (below (diffDir dir) [r]) = none :=
    h.file_short [r] (by simp) (by simp) (by simpa using hr)
  have hss2 : ∀ s ∈ [r, f], plain s := by
    intro s hs
    simp only [List.mem_cons, List.mem_singleton, List.not_mem_nil, or_false] at hs
    rcases hs with rfl | rfl <;> assumption
  by_cases h2 : fs.isDir (below (diffDir dir) [r, f]) = true
  · exact ⟨fs, by rw [MkdirAll_succ, if_pos h2], h, rfl, h2⟩
  · by_cases h1 : fs.isDir (below (diffDir dir) [r]) = true
    · refine ⟨{ fs with dirs := fs.dirs ++ [below (diffDir dir) [r, f]] }, ?_,
        h.add_dir [r, f] (by simp) (by simp) hss2, rfl, (FS.isDir_add _ _ _).2 (Or.inr rfl)⟩
      rw [MkdirAll_succ, if_neg h2, hf2, hD1, MkdirAll_succ, if_pos h1]
      simp
    · have hinv1 := h.add_dir [r] (by simp) (by simp) (by simpa using hr)
      refine ⟨{ fs with dirs := fs.dirs ++ [below (diffDir dir) [r]] ++
          [below (diffDir dir) [r, f]] }, ?_, ?_, rfl, ?_⟩
      · rw [MkdirAll_succ, if_neg h2, hf2, hD1, MkdirAll_succ, if_neg h1, hf1, hD0,
          MkdirAll_succ, if_pos h.1]
        simp
      · exact hinv1.add_dir [r, f] (by simp) (by simp) hss2
      · rw [FS.isDir_iff]
        right; right
        simp

theorem below_length (root : Str) (ss : List Str) (hroot : root ≠ []) :
    2 ≤ (below root ss).length := by
  have : 0 < root.length := List.length_pos.2 hroot
  simp only [below, List.length_append, List.length_cons]
  omega

/-- `CreateDiff` with a path-safe key succeeds, stores the record at the path of
its key, and keeps the shape of the diff directory. -/
theorem CreateDiff_spec (dir : Str) (fs : FS) (request : DiffInfo) (h : FSInv dir fs)
    (hsafe : pathSafe request.Diff) :
    ∃ fs2, CreateDiff dir fs request = (.ok (), fs2) ∧ FSInv dir fs2 ∧
      fs2.files = setFile fs.files (diffPath dir request.Diff) request := by
  have hr := hsafe.1
  have hf := plain_FormatUint request.Diff.Shard
  have hc := plain_commitElem request.Diff.Commit.ID hsafe.2.1
  have hpath := diffPath_eq dir request.Diff hsafe
  have hD2 : Dir (diffPath dir request.Diff)
      = below (diffDir dir) [request.Diff.Commit.Repo.Name, FormatUint request.Diff.Shard] := by
    rw [hpath]
    have := Dir_below dir [request.Diff.Commit.Repo.Name, FormatUint request.Diff.Shard]
      (commitElem request.Diff.Commit.ID) (by
        intro s hs
        simp only [List.mem_cons, List.mem_singleton, List.not_mem_nil, or_false] at hs
        rcases hs with rfl | rfl <;> assumption) hc
    simpa using this
  have hlen := below_length (diffDir dir)
    [request.Diff.Commit.Repo.Name, FormatUint request.Diff.Shard,
      commitElem request.Diff.Commit.ID] (diffDir_ne_nil dir)
  rw [← hpath] at hlen
  obtain ⟨fs1, hmk, hinv1, hfiles1, hdir1⟩ :=
    MkdirAll_shard_dir dir fs _ _ ((diffPath dir request.Diff).length + 1) h hr hf (by omega)
  have hnd : fs1.isDir (diffPath dir request.Diff) = false := by
    rw [hpath]
    exact hinv1.not_isDir_key _ _ _ hr hf hc
  refine ⟨{ fs1 with files := setFile fs1.files (diffPath dir request.Diff) request }, ?_, ?_, ?_⟩
  · unfold CreateDiff
    rw [hD2, hmk]
    simp only [WriteFile, hnd, hD2, hdir1]
    simp
  · obtain ⟨h1, h2, h3, h4⟩ := hinv1
    refine ⟨h1, ?_, h3, setFile_nodup _ _ _ h4⟩
    intro e he
    rcases mem_setFile he with rfl | he
    · exact ⟨hsafe, rfl⟩
    · exact h2 e he
  · simp only [hfiles1]

/-- The diff directory after any sequence of `CreateDiff` calls with path-safe
keys: its shape is kept, every stored record is one of the requests (or was
there before), and every request has a file at the path of its key. -/
theorem createDiffs_inv (dir : Str) : ∀ (requests : List DiffInfo) (fs : FS), FSInv dir fs →
    (∀ r ∈ requests, pathSafe r.Diff) →
    FSInv dir (createDiffs dir fs requests) ∧
    (∀ e ∈ (createDiffs dir fs requests).files, e ∈ fs.files ∨ e.2 ∈ requests) ∧
    (∀ k ∈ fs.files.map Prod.fst, k ∈ (createDiffs dir fs requests).files.map Prod.fst) ∧
    (∀ r ∈ requests, diffPath dir r.Diff ∈ (createDiffs dir fs requests).files.map Prod.fst) := by
  intro requests
  induction requests with
  | nil =>
    intro fs h _
    exact ⟨h, fun e he => Or.inl he, fun k hk => hk, fun r hr => absurd hr (List.not_mem_nil _)⟩
  | cons r rs ih =>
    intro fs h hsafe
    obtain ⟨fs2, hcd, hinv2, hfiles2⟩ :=
      CreateDiff_spec dir fs r h (hsafe r (List.mem_cons_self _ _))
    have hstep : createDiffs dir fs (r :: rs) = createDiffs dir fs2 rs := by
      simp [createDiffs, hcd]
    rw [hstep]
    obtain ⟨i1, i2, i3, i4⟩ := ih fs2 hinv2 (fun x hx => hsafe x (List.mem_cons_of_mem _ hx))
    refine ⟨i1, ?_, ?_, ?_⟩
    · intro e he
      rcases i2 e he with h2 | h2
      · rw [hfiles2] at h2
        rcases mem_setFile h2 with rfl | h2
        · exact Or.inr (List.mem_cons_self _ _)
        · exact Or.inl h2
      · exact Or.inr (List.mem_cons_of_mem _ h2)
    · intro k hk
      apply i3
      rw [hfiles2, setFile_keys]
      exact Or.inr hk
    · intro x hx
      rcases List.mem_cons.1 hx with rfl | hx
      · apply i3
        rw [hfiles2, setFile_keys]
        exact Or.inl rfl
      · exact i4 x hx

/-! ## `ListDiff` -/

theorem listDiffLoop_ok (dir : Str) (fs : FS) (Shard : Nat) :
    ∀ (paths : List Str) (sent : List DiffInfo),
      (∀ p ∈ paths, ∀ diff, pathToDiff dir p = some diff → diff.Shard = Shard →
        ∃ info, readDiff dir fs diff = .ok info) →
      listDiffLoop dir fs Shard paths sent
        = (.ok (), sent ++ paths.filterMap (listed dir fs Shard)) := by
  intro paths
  induction paths with
  | nil => intro sent _; simp [listDiffLoop]
  | cons p rest ih =>
    intro sent h
    have hrest := fun q hq => h q (List.mem_cons_of_mem _ hq)
    unfold listDiffLoop
    cases hp : pathToDiff dir p with
    | none =>
      simp only
      rw [ih sent hrest]
      simp [listed, hp]
    | some diff =>
      simp only
      by_cases hs : diff.Shard = Shard
      · obtain ⟨info, hinfo⟩ := h p (List.mem_cons_self _ _) diff hp hs
        rw [if_pos hs, hinfo]
        simp only
        rw [ih _ hrest]
        simp [listed, hp, hs, hinfo]
      · rw [if_neg hs, ih sent hrest]
        simp [listed, hp, hs]

theorem diffPath_decoded (dir : Str) (diff : Diff) (h : pathSafe diff) :
    diffPath dir ⟨⟨diff.Commit.Repo, if diff.Commit.ID = ['_'] then [] else diff.Commit.ID⟩,
      diff.Shard⟩ = diffPath dir diff := by
  have hsafe1 : pathSafe ⟨⟨diff.Commit.Repo,
      if diff.Commit.ID = ['_'] then [] else diff.Commit.ID⟩, diff.Shard⟩ := by
    refine ⟨h.1, ?_, h.2.2⟩
    by_cases hi : diff.Commit.ID = ['_']
    · simp [hi]
    · simpa [hi] using h.2.1
  rw [diffPath_eq dir _ hsafe1, diffPath_eq dir diff h]
  have hce : commitElem (if diff.Commit.ID = ['_'] then [] else diff.Commit.ID)
      = commitElem diff.Commit.ID := by
    by_cases hi : diff.Commit.ID = ['_']
    · rw [if_pos hi, hi]; rfl
    · rw [if_neg hi]
  simp only [hce]

/-- The walk function on a stored file: the record is read back and sent exactly
when the shard of its key is the requested one. -/
theorem listed_file {dir : Str} {fs : FS} (h : FSInv dir fs) (Shard : Nat)
    (e : Str × DiffInfo) (he : e ∈ fs.files) :
    listed dir fs Shard e.1 = (if e.2.Diff.Shard = Shard then some e.2 else none) ∧
    ∀ diff, pathToDiff dir e.1 = some diff → ∃ info, readDiff dir fs diff = .ok info := by
  obtain ⟨hsafe, hpath⟩ := h.2.1 e he
  have hp := pathToDiff_diffPath_safe dir e.2.Diff hsafe
  rw [← hpath] at hp
  have hread : readDiff dir fs ⟨⟨e.2.Diff.Commit.Repo,
      if e.2.Diff.Commit.ID = ['_'] then [] else e.2.Diff.Commit.ID⟩, e.2.Diff.Shard⟩
      = .ok e.2 := by
    unfold readDiff
    rw [diffPath_decoded dir _ hsafe, ← hpath]
    have hnd : fs.isDir e.1 = false := by
      rw [hpath, diffPath_eq dir _ hsafe]
      exact h.not_isDir_key _ _ _ hsafe.1 (plain_FormatUint _) (plain_commitElem _ hsafe.2.1)
    have hfile : fs.file e.1 = some e.2 := by
      unfold FS.file
      rw [find_of_mem_nodup fs.files e.1 e.2 h.2.2.2 he]
      rfl
    simp [ReadFile, hnd, hfile]
  refine ⟨?_, ?_⟩
  · unfold listed
    rw [hp]
    simp only
    rw [hread]
  · intro diff hd
    rw [hp] at hd
    injection hd with hd
    exact ⟨e.2, by rw [← hd]; exact hread⟩

theorem filterMap_shard (Shard : Nat) : ∀ (files : List (Str × DiffInfo)),
    files.filterMap (fun e => if e.2.Diff.Shard = Shard then some e.2 else none)
      = (files.map Prod.snd).filter (fun i => i.Diff.Shard = Shard) := by
  intro files
  induction files with
  | nil => rfl
  | cons e rest ih =>
    by_cases hs : e.2.Diff.Shard = Shard
    · simp [List.filterMap_cons, hs, ih]
    · simp [List.filterMap_cons, hs, ih]

/-- C4 amended (shard filter correctness): start from a diff directory that
exists and is empty, run any sequence of `CreateDiff` calls whose keys are
path-safe, and let the diff directory itself not parse as a diff of the requested
shard.  Then `ListDiff` succeeds and sends, each once and in some order, exactly
the stored records whose key has the requested shard; the stored records are
requests, each at the path of its own key, one per path. -/
theorem ListDiff_shard_filter (dir : Str) (fs0 : FS) (requests : List DiffInfo) (Shard : Nat)
    (hfiles : fs0.files = []) (hdir : fs0.isDir (diffDir dir) = true)
    (hempty : ∀ p ∈ fs0.dirs, (diffDir dir ++ ['/']).isPrefixOf p = false)
    (hsafe : ∀ r ∈ requests, pathSafe r.Diff)
    (hroot : ∀ diff, pathToDiff dir (diffDir dir) = some diff → diff.Shard ≠ Shard) :
    ∃ out, ListDiff dir (createDiffs dir fs0 requests) Shard = (.ok (), out) ∧
      out.Perm (((createDiffs dir fs0 requests).files.map Prod.snd).filter
        (fun i => i.Diff.Shard = Shard)) ∧
      ((createDiffs dir fs0 requests).files.map Prod.fst).Nodup ∧
      (∀ e ∈ (createDiffs dir fs0 requests).files,
        e.2 ∈ requests ∧ e.1 = diffPath dir e.2.Diff) ∧
      (∀ r ∈ requests,
        diffPath dir r.Diff ∈ (createDiffs dir fs0 requests).files.map Prod.fst) := by
  have hinv0 : FSInv dir fs0 := by
    refine ⟨hdir, ?_, ?_, ?_⟩
    · intro e he; rw [hfiles] at he; exact absurd he (List.not_mem_nil _)
    · intro p hp hpre; rw [hempty p hp] at hpre; exact absurd hpre (by simp)
    · rw [hfiles]; exact List.nodup_nil
  obtain ⟨hinv, hfrom, _, hall⟩ := createDiffs_inv dir requests fs0 hinv0 hsafe
  generalize createDiffs dir fs0 requests = fs at hinv hfrom hall ⊢
  have hlroot : listed dir fs Shard (diffDir dir) = none := by
    unfold listed
    cases hp : pathToDiff dir (diffDir dir) with
    | none => rfl
    | some diff => simp [hroot diff hp]
  have hldir : ∀ p ∈ fs.dirs, (diffDir dir ++ ['/']).isPrefixOf p = true →
      pathToDiff dir p = none := by
    intro p hp hpre
    obtain ⟨ss, rfl, hne, hlen, hss⟩ := hinv.2.2.1 p hp hpre
    exact pathToDiff_below_short dir ss hne (fun s hs => (hss s hs).2.1) hlen
  have hkeys : ∀ k ∈ fs.files.map Prod.fst, (diffDir dir ++ ['/']).isPrefixOf k = true := by
    intro k hk
    obtain ⟨e, he, rfl⟩ := List.mem_map.1 hk
    obtain ⟨hs, hpath⟩ := hinv.2.1 e he
    rw [hpath, diffPath_eq dir _ hs]
    exact below_isPrefixOf _ _
  have hperm := List.perm_insertionSort (fun a b => pathLE a b = true)
    ((fs.dirs ++ fs.files.map (fun e => e.1)).filter
      (fun p => (diffDir dir ++ ['/']).isPrefixOf p))
  have hwalk : walkPaths fs (diffDir dir) = diffDir dir ::
      List.insertionSort (fun a b => pathLE a b = true)
        ((fs.dirs ++ fs.files.map (fun e => e.1)).filter
          (fun p => (diffDir dir ++ ['/']).isPrefixOf p)) := by
    unfold walkPaths
    rw [if_pos hinv.1]
  have hok : ∀ p ∈ walkPaths fs (diffDir dir), ∀ diff, pathToDiff dir p = some diff →
      diff.Shard = Shard → ∃ info, readDiff dir fs diff = .ok info := by
    intro p hp diff hd hs
    rw [hwalk] at hp
    rcases List.mem_cons.1 hp with rfl | hp
    · exact absurd hs (hroot diff hd)
    · have hp1 := (List.mem_filter.1 (hperm.mem_iff.1 hp))
      rcases List.mem_append.1 hp1.1 with hmem | hmem
      · rw [hldir p hmem hp1.2] at hd
        exact absurd hd (by simp)
      · obtain ⟨e, he, rfl⟩ := List.mem_map.1 hmem
        exact (listed_file hinv Shard e he).2 diff hd
  refine ⟨[] ++ (walkPaths fs (diffDir dir)).filterMap (listed dir fs Shard), ?_, ?_,
    hinv.2.2.2, ?_, hall⟩
  · unfold ListDiff
    rw [listDiffLoop_ok dir fs Shard _ [] hok]
  · rw [hwalk, List.nil_append, List.filterMap_cons, hlroot]
    refine (hperm.filterMap (listed dir fs Shard)).trans ?_
    rw [List.filter_append, List.filterMap_append]
    have h1 : (fs.dirs.filter (fun p => (diffDir dir ++ ['/']).isPrefixOf p)).filterMap
        (listed dir fs Shard) = [] := by
      rw [List.filterMap_eq_nil_iff]
      intro p hp
      have hp1 := List.mem_filter.1 hp
      unfold listed
      rw [hldir p hp1.1 hp1.2]
    have h2 : (fs.files.map (fun e => e.1)).filter
        (fun p => (diffDir dir ++ ['/']).isPrefixOf p) = fs.files.map (fun e => e.1) := by
      rw [List.filter_eq_self]
      intro k hk
      exact hkeys k hk
    rw [h1, h2, List.nil_append, List.filterMap_map]
    have h3 : fs.files.filterMap (listed dir fs Shard ∘ fun e => e.1)
        = fs.files.filterMap (fun e => if e.2.Diff.Shard = Shard then some e.2 else none) := by
      apply List.filterMap_congr
      intro e he
      exact (listed_file hinv Shard e he).1
    rw [h3, filterMap_shard]
  · intro e he
    obtain ⟨_, hpath⟩ := hinv.2.1 e he
    refine ⟨?_, hpath⟩
    rcases hfrom e he with h | h
    · rw [hfiles] at h; exact absurd h (List.not_mem_nil _)
    · exact h

/-- C4 amended at a concrete input: under `/data`, after `CreateDiff` for
(`r1`, shard 2, empty commit) and (`r1`, shard 3, commit `c1`), `ListDiff 2` sends
exactly the first record. -/
theorem ListDiff_shard_filter_witness :
    newLocalBlockAPIServer "/data".toList
      = .ok ⟨[], ["/data".toList, "/data/tmp".toList, "/data/diff".toList,
          "/data/block".toList]⟩ ∧
    ∃ out, ListDiff "/data".toList
        (createDiffs "/data".toList
          ⟨[], ["/data".toList, "/data/tmp".toList, "/data/diff".toList, "/data/block".toList]⟩
          [⟨⟨⟨⟨"r1".toList⟩, []⟩, 2⟩, [1]⟩, ⟨⟨⟨⟨"r1".toList⟩, "c1".toList⟩, 3⟩, [2]⟩]) 2
        = (.ok (), out) ∧
      out.Perm [⟨⟨⟨⟨"r1".toList⟩, []⟩, 2⟩, [1]⟩] :=
  ⟨by rfl,
   (ListDiff_shard_filter "/data".toList
      ⟨[], ["/data".toList, "/data/tmp".toList, "/data/diff".toList, "/data/block".toList]⟩
      [⟨⟨⟨⟨"r1".toList⟩, []⟩, 2⟩, [1]⟩, ⟨⟨⟨⟨"r1".toList⟩, "c1".toList⟩, 3⟩, [2]⟩] 2
      rfl (by decide) (by decide) (by decide)
      (by
        intro diff h
        have hn : pathToDiff "/data".toList (diffDir "/data".toList) = none := by decide
        rw [hn] at h
        cases h)).imp (fun _ h => ⟨h.1, h.2.1⟩)⟩

/-- C4 as stated fails: under `/data`, after `CreateDiff` for the key (`a/7`,
shard 2, commit `c`) the record is stored, but `ListDiff 2` sends nothing (its
path parses as shard 7), and `ListDiff 7` fails on the directory `a/7/2`.  And
under the server directory `/5/x` the diff directory itself parses as a diff of
shard 5, so `ListDiff 5` fails even on the empty diff directory. -/
theorem ListDiff_shard_filter_counterexample :
    (createDiffs "/data".toList
        ⟨[], ["/data".toList, "/data/tmp".toList, "/data/diff".toList, "/data/block".toList]⟩
        [⟨⟨⟨⟨"a/7".toList⟩, "c".toList⟩, 2⟩, [1]⟩]).files
      = [("/data/diff/a/7/2/c".toList, ⟨⟨⟨⟨"a/7".toList⟩, "c".toList⟩, 2⟩, [1]⟩)] ∧
    ListDiff "/data".toList
        (createDiffs "/data".toList
          ⟨[], ["/data".toList, "/data/tmp".toList, "/data/diff".toList, "/data/block".toList]⟩
          [⟨⟨⟨⟨"a/7".toList⟩, "c".toList⟩, 2⟩, [1]⟩]) 2
      = (.ok (), []) ∧
    ListDiff "/data".toList
        (createDiffs "/data".toList
          ⟨[], ["/data".toList, "/data/tmp".toList, "/data/diff".toList, "/data/block".toList]⟩
          [⟨⟨⟨⟨"a/7".toList⟩, "c".toList⟩, 2⟩, [1]⟩]) 7
      = (.error Err.IsDir, []) ∧
    newLocalBlockAPIServer "/5/x".toList
      = .ok ⟨[], ["/5".toList, "/5/x".toList, "/5/x/tmp".toList, "/5/x/diff".toList,
          "/5/x/block".toList]⟩ ∧
    pathToDiff "/5/x".toList (diffDir "/5/x".toList) = some ⟨⟨⟨[]⟩, "x".toList⟩, 5⟩ ∧
    ListDiff "/5/x".toList
        ⟨[], ["/5".toList, "/5/x".toList, "/5/x/tmp".toList, "/5/x/diff".toList,
          "/5/x/block".toList]⟩ 5
      = (.error Err.NotExist, []) := by
  refine ⟨by rfl, by rfl, by rfl, by rfl, by rfl, by rfl⟩

end Pfs
